import Mathlib

/-!
Verification development for the index-builder subsystem of the OneNote
exporter: hierarchical page-tree resolution, filesystem layout planning and
index generation, as implemented in `index_builder.py`.

Strings are modelled by Lean `String`, Python `int` by `Int` (or `Nat` where
the source guarantees nonnegativity), `pathlib.Path` values by their list of
segments, Python dicts by insertion-ordered association lists, and the
mutable `PageNode` graph by explicit state passing plus inductive trees.
-/

namespace OneNote

/-- A raw page record, as consumed by `PageTreeBuilder.__init__`
(keys `id`, `title`, `parentPageId`, `level`, `order`, timestamps). -/
structure RawPage where
  id : String
  title : String
  createdDateTime : Option String
  lastModifiedDateTime : Option String
  parentPageId : Option String
  level : Int
  order : Int
  deriving Repr, DecidableEq, Inhabited

/-- Python dict insertion `d[k] = v`: an existing key keeps its position and
gets the new value, a fresh key is appended. Used for `self.nodes[node.id]`. -/
def dictInsert (m : List RawPage) (p : RawPage) : List RawPage :=
  if m.any (fun q => q.id == p.id) then
    m.map (fun q => if q.id == p.id then p else q)
  else m ++ [p]

/-- `PageTreeBuilder._create_nodes`: fill the `self.nodes` dict in input
order; the result is the dict's value list in insertion order. -/
def createNodes (pages : List RawPage) : List RawPage :=
  pages.foldl dictInsert []

/-- Insert one element into a list sorted by `order`, before the first
strictly larger element and after all smaller-or-equal ones. -/
def insertByOrder (x : RawPage) : List RawPage → List RawPage
  | [] => [x]
  | y :: ys => if x.order ≤ y.order then x :: y :: ys else y :: insertByOrder x ys

/-- Stable sort by the `order` field, matching Python's stable `sorted`
with `key=lambda n: n.order`. -/
def sortByOrder : List RawPage → List RawPage
  | [] => []
  | x :: xs => insertByOrder x (sortByOrder xs)

/-- Stable insertion for `list.sort(key=lambda n: n.order)` reuse below. -/
def sortPagesFinal (l : List RawPage) : List RawPage := sortByOrder l

/-- Python truthiness of an optional string: `None` and `""` are falsy. -/
def truthyOptStr : Option String → Bool
  | none => false
  | some s => !(s == "")

/-! ## Utility functions (`sanitize_path_name`, `safe_link_label`,
`md_link_target`, `format_order_prefix`, `path_to_markdown_link`) -/

/-- The characters forbidden on common filesystems, from the regex
`[<>:"/\\|?*]` in `sanitize_path_name`. -/
def forbiddenChars : List Char := ['<', '>', ':', '"', '/', '\\', '|', '?', '*']

/-- `re.sub(r'[<>:"/\\|?*]', '_', text)` on the character list. -/
def replaceForbidden (l : List Char) : List Char :=
  l.map (fun c => if forbiddenChars.contains c then '_' else c)

/-- Membership in the strip set of `str.strip('. ')`. -/
def isDotSpace (c : Char) : Bool := c == '.' || c == ' '

/-- Python `text.rstrip('. ')`. -/
def rstripDotSpace (l : List Char) : List Char :=
  (l.reverse.dropWhile isDotSpace).reverse

/-- Python `text.strip('. ')`. -/
def stripDotSpace (l : List Char) : List Char :=
  rstripDotSpace (l.dropWhile isDotSpace)

/-- `sanitize_path_name(text, max_length)`: replace forbidden characters with
`_`, strip leading/trailing dots and spaces, truncate to `maxLength`
re-stripping trailing dots/spaces, falling back to `"untitled"`. -/
def sanitize_path_name (text : String) (maxLength : Nat) : String :=
  if text = "" then "untitled"
  else
    let t := stripDotSpace (replaceForbidden text.data)
    let t := if maxLength < t.length then rstripDotSpace (t.take maxLength) else t
    if t = [] then "untitled" else String.mk t

/-- `slugify(text)`: alias for `sanitize_path_name` with the default
`max_length=200`. -/
def slugify (text : String) : String := sanitize_path_name text 200

/-- The whitespace characters stripped by unadorned Python `str.strip()`
(ASCII subset; titles in this model are ASCII-or-plain unicode text where
only these occur at the ends). -/
def pyWhitespace : List Char := [' ', '\t', '\n', '\r', '\x0b', '\x0c']

/-- Python `s.strip()` (whitespace strip). -/
def pyStrip (s : String) : String :=
  String.mk (((s.data.dropWhile pyWhitespace.contains).reverse.dropWhile
    pyWhitespace.contains).reverse)

/-- `safe_link_label(title)`: the stripped title, or `"Untitled"` when the
title is empty or all-whitespace. -/
def safe_link_label (title : String) : String :=
  if title = "" || pyStrip title = "" then "Untitled" else pyStrip title

/-- One encoding pass `s.replace(old, new)` where `old` is a single
character: expand that character to a replacement block. -/
def expandChar (old : Char) (new : List Char) (l : List Char) : List Char :=
  l.flatMap (fun c => if c == old then new else [c])

/-- `md_link_target(path)`: backslashes to slashes, then percent-encode
`%` (first), space, `#`, `?`. Empty input maps to the empty string. -/
def md_link_target (path : String) : String :=
  if path = "" then ""
  else
    let l := path.data.map (fun c => if c == '\\' then '/' else c)
    let l := expandChar '%' ['%', '2', '5'] l
    let l := expandChar ' ' ['%', '2', '0'] l
    let l := expandChar '#' ['%', '2', '3'] l
    let l := expandChar '?' ['%', '3', 'F'] l
    String.mk l

/-- Zero-pad a number to a width, as the format specifiers `{:01d}`,
`{:02d}`, ... do for nonnegative arguments. -/
def padNum (n : Nat) (w : Nat) : String :=
  let s := toString n
  if s.length < w then String.mk (List.replicate (w - s.length) '0') ++ s else s

/-- `format_order_prefix(index, total)`. -/
def format_order_pfx (index total : Nat) : String :=
  if total < 10 then padNum index 1
  else if total < 100 then padNum index 2
  else if total < 1000 then padNum index 3
  else padNum index 4

/-! ## Filesystem paths -/

/-- A `pathlib.Path` value, as its list of segments. -/
abbrev FsPath := List String

/-- `str(path)` with forward slashes (POSIX rendering). -/
def pathStr (p : FsPath) : String := String.intercalate "/" p

/-- `base.is_relative_to(p)`-style segment check: `base` is a prefix of `p`. -/
def pathStarts (base p : FsPath) : Bool :=
  match base, p with
  | [], _ => true
  | _ :: _, [] => false
  | b :: bs, q :: qs => b == q && pathStarts bs qs

/-- `path_to_markdown_link(path, base_path, encode)`: the path relative to
`base_path` when that is a prefix (`relative_to` succeeds; the degenerate
equal-path case renders as `"."`), else the full path; backslashes become
slashes; optionally encoded by `md_link_target`. -/
def path_to_markdown_link (p base : FsPath) (encode : Bool) : String :=
  let rel :=
    if pathStarts base p then
      if p.length == base.length then "." else pathStr (p.drop base.length)
    else pathStr p
  let rel := String.mk (rel.data.map (fun c => if c == '\\' then '/' else c))
  if encode then md_link_target rel else rel

/-! ## `PageTreeBuilder` -/

/-- Orphan reason set by `_build_relationships_from_levels`. -/
def noParentReason : String := "No parent found at expected level"

/-- Orphan reason set by `_detect_cycles_and_orphans`. -/
def cycleReason : String := "Involved in circular reference"

/-- Mutable state of `_build_relationships_from_levels`: the parent stack
(head is the Python list's end, i.e. the top), the parent assignments made by
attachment (overwriting `parent_page_id`), the `children` lists, and the
orphan flags/reasons set so far. -/
structure TBState where
  stack : List (String × Int)
  assigned : String → Option String
  childrenOf : String → List String
  orphanFlag : String → Bool
  reasonOf : String → Option String

/-- Initial tree-builder state. -/
def TBState.init : TBState :=
  ⟨[], fun _ => none, fun _ => [], fun _ => false, fun _ => none⟩

/-- `while parent_stack and parent_stack[-1][1] >= level: parent_stack.pop()`. -/
def popStack (stack : List (String × Int)) (level : Int) : List (String × Int) :=
  stack.dropWhile (fun e => level ≤ e.2)

/-- One iteration of the loop body of `_build_relationships_from_levels`
for the node `n`. -/
def tbStep (st : TBState) (n : RawPage) : TBState :=
  let stack := popStack st.stack n.level
  match stack with
  | (pid, _) :: _ =>
    if 0 < n.level then
      { st with
        stack := (n.id, n.level) :: stack
        assigned := fun j => if j == n.id then some pid else st.assigned j
        childrenOf := fun j => if j == pid then st.childrenOf j ++ [n.id] else st.childrenOf j }
    else
      { st with stack := (n.id, n.level) :: stack }
  | [] =>
    if 0 < n.level then
      { st with
        stack := [(n.id, n.level)]
        orphanFlag := fun j => if j == n.id then true else st.orphanFlag j
        reasonOf := fun j => if j == n.id then some noParentReason else st.reasonOf j }
    else
      { st with stack := [(n.id, n.level)] }

/-- `_build_relationships_from_levels` over the nodes sorted by `order`. -/
def buildRelationships (nodes : List RawPage) : TBState :=
  (sortByOrder nodes).foldl tbStep TBState.init

/-- State of the cycle-detection DFS: the `visited` and `in_stack` sets and
the ids marked `"Involved in circular reference"` so far. -/
structure DfsState where
  visited : List String
  instack : List String
  cycMarked : List String
  deriving Repr, DecidableEq

/-- The `for child in node.children` loop inside `dfs`, parametrized by the
visit of one child node: on a detected cycle the child is marked as involved
in a circular reference and `True` propagates; otherwise the loop
continues. -/
def dfsKidsGen (visit : String → DfsState → Bool × DfsState) :
    List String → DfsState → Bool × DfsState
  | [], st => (false, st)
  | c :: cs, st =>
    match visit c st with
    | (true, st1) => (true, { st1 with cycMarked := c :: st1.cycMarked })
    | (false, st1) => dfsKidsGen visit cs st1

/-- The inner `dfs(node_id)` of `_detect_cycles_and_orphans`, with explicit
recursion fuel (the callers supply fuel exceeding the maximal recursion
depth, which is bounded by the number of nodes). -/
def dfsVisit (childrenOf : String → List String) (isNode : String → Bool) :
    Nat → String → DfsState → Bool × DfsState
  | 0, _, st => (false, st)
  | fuel + 1, i, st =>
    if st.instack.contains i then (true, st)
    else if st.visited.contains i then (false, st)
    else
      let st1 : DfsState :=
        { st with visited := i :: st.visited, instack := i :: st.instack }
      let kids := if isNode i then childrenOf i else []
      match dfsKidsGen (dfsVisit childrenOf isNode fuel) kids st1 with
      | (true, st2) => (true, st2)
      | (false, st2) => (false, { st2 with instack := st2.instack.erase i })

/-- The top-level loop of `_detect_cycles_and_orphans`: run `dfs` from every
unvisited node id, in dict order. -/
def runDfs (childrenOf : String → List String) (isNode : String → Bool)
    (fuel : Nat) (ids : List String) : DfsState :=
  ids.foldl
    (fun st i => if st.visited.contains i then st else (dfsVisit childrenOf isNode fuel i st).2)
    ⟨[], [], []⟩

/-- The effective `parent_page_id` of a node after relationship building: the
assigned parent when attachment happened, otherwise the input value. -/
def effParent (st : TBState) (n : RawPage) : Option String :=
  match st.assigned n.id with
  | some p => some p
  | none => n.parentPageId

/-- Result of `PageTreeBuilder.build` before conversion to trees: the node
dict, its sorted view, the relationship state, the post-cycle-pass orphan
flags and reasons, and the categorized, order-sorted root/orphan node lists. -/
structure TreeOut where
  nodes : List RawPage
  relSt : TBState
  orphanFlag : String → Bool
  reasonOf : String → Option String
  rootNodes : List RawPage
  orphanNodes : List RawPage

/-- Steps 1–4 of `PageTreeBuilder.build` on the id-keyed view: node creation,
relationship building, cycle detection, categorization. -/
def treeOut (pages : List RawPage) : TreeOut :=
  let nodes := createNodes pages
  let st := buildRelationships nodes
  let dfsOut := runDfs st.childrenOf (fun i => nodes.any (fun q => q.id == i))
    (nodes.length + 1) (nodes.map (fun n => n.id))
  let oflag := fun j => st.orphanFlag j || dfsOut.cycMarked.contains j
  let reas := fun j =>
    if dfsOut.cycMarked.contains j then some cycleReason else st.reasonOf j
  let roots := sortPagesFinal (nodes.filter (fun n =>
    !oflag n.id && (n.level == 0 || !truthyOptStr (effParent st n))))
  let orphans := sortPagesFinal (nodes.filter (fun n => oflag n.id))
  ⟨nodes, st, oflag, reas, roots, orphans⟩

/-- The resolved per-page attributes of a `PageNode` after tree building
(before layout planning). -/
structure PageData where
  id : String
  title : String
  createdDateTime : Option String
  lastModifiedDateTime : Option String
  parentPageId : Option String
  level : Int
  order : Int
  isOrphan : Bool
  orphanReason : Option String
  deriving Repr, DecidableEq, Inhabited

/-- A resolved `PageNode` with its (exclusively owned) children: the object
graph returned by `PageTreeBuilder.build`. -/
inductive PageT where
  | mk (data : PageData) (children : List PageT)

/-- The node's own attributes. -/
def PageT.data : PageT → PageData
  | .mk d _ => d

/-- The node's children. -/
def PageT.children : PageT → List PageT
  | .mk _ c => c

/-- The `PageData` of the node with a given id, read off a `TreeOut`. -/
def nodeData (t : TreeOut) (i : String) : PageData :=
  match t.nodes.find? (fun n => n.id == i) with
  | some n =>
    ⟨n.id, n.title, n.createdDateTime, n.lastModifiedDateTime,
      effParent t.relSt n, n.level, n.order, t.orphanFlag n.id, t.reasonOf n.id⟩
  | none => default

/-- Unfold the children graph of a `TreeOut` into a tree, with recursion
fuel (fuel exceeding the node count is always sufficient, children ids
occurring strictly later in the sorted node list than their parent). -/
def toTree (t : TreeOut) : Nat → String → PageT
  | 0, i => .mk (nodeData t i) []
  | fuel + 1, i => .mk (nodeData t i) ((t.relSt.childrenOf i).map (toTree t fuel))

/-- `PageTreeBuilder.build`: the `(root_nodes, orphan_nodes)` pair as trees,
plus the flat node list (`self.nodes.values()`, used for `section.pages`). -/
structure BuildPagesOut where
  roots : List PageT
  orphans : List PageT
  allPages : List PageData

/-- `PageTreeBuilder(pages).build()`. -/
def buildPages (pages : List RawPage) : BuildPagesOut :=
  if pages.isEmpty then ⟨[], [], []⟩
  else
    let t := treeOut pages
    let fuel := t.nodes.length + 1
    ⟨t.rootNodes.map (fun n => toTree t fuel n.id),
     t.orphanNodes.map (fun n => toTree t fuel n.id),
     t.nodes.map (fun n => nodeData t n.id)⟩

/-! ## `FilesystemLayoutPlanner` -/

/-- Python dict insertion for the `id_to_path` map. -/
def dictInsertStr (m : List (String × String)) (k v : String) :
    List (String × String) :=
  if m.any (fun e => e.1 == k) then
    m.map (fun e => if e.1 == k then (k, v) else e)
  else m ++ [(k, v)]

/-- Mutable state of `FilesystemLayoutPlanner`: the `id_to_path` dict and the
ordered `operations` list. -/
structure PlannerState where
  idToPath : List (String × String)
  operations : List (String × FsPath)
  deriving Repr, DecidableEq

/-- A `PageNode` after layout planning: the `depth`, `order_prefix`,
`resolved_path` and `relative_path_from_root` fields have been filled in
(or left at their dataclass defaults for nodes the planner never visits). -/
inductive PlannedPage where
  | mk (data : PageData) (depth : Nat) (orderPfx : String)
      (resolvedPath : Option FsPath) (relativePathFromRoot : Option String)
      (children : List PlannedPage)

/-- Attributes of a planned page. -/
def PlannedPage.data : PlannedPage → PageData
  | .mk d _ _ _ _ _ => d

/-- Depth of a planned page in the resolved tree. -/
def PlannedPage.depth : PlannedPage → Nat
  | .mk _ d _ _ _ _ => d

/-- Order prefix of a planned page. -/
def PlannedPage.orderPfx : PlannedPage → String
  | .mk _ _ o _ _ _ => o

/-- Resolved path of a planned page (`None` when the planner never visited
the node). -/
def PlannedPage.resolvedPath : PlannedPage → Option FsPath
  | .mk _ _ _ p _ _ => p

/-- Relative path from the export root, when assigned. -/
def PlannedPage.relativePathFromRoot : PlannedPage → Option String
  | .mk _ _ _ _ r _ => r

/-- Children of a planned page. -/
def PlannedPage.children : PlannedPage → List PlannedPage
  | .mk _ _ _ _ _ c => c

mutual
/-- A tree node the planner never visits keeps the `PageNode` dataclass
defaults: `depth=0`, `order_prefix=""`, `resolved_path=None`,
`relative_path_from_root=None`. -/
def unplannedPage : PageT → PlannedPage
  | .mk d kids => .mk d 0 "" none none (unplannedPages kids)

/-- `unplannedPage` over a list of children. -/
def unplannedPages : List PageT → List PlannedPage
  | [] => []
  | t :: ts => unplannedPage t :: unplannedPages ts
end

mutual
/-- `FilesystemLayoutPlanner._plan_page_recursive`: pages with children get
a folder (named after the page) holding their content file and their
recursively planned children; leaf pages get a plain file in the parent
directory; the id→path entry is stored after the children are planned. -/
def planPageRec (root : FsPath) :
    PageT → FsPath → String → Nat → PlannerState → PlannedPage × PlannerState
  | .mk d kids, parentPath, pfx, depth, st =>
    let slug := slugify d.title
    if kids.isEmpty then
      let contentFile := parentPath ++ [slug ++ ".html"]
      let rel := path_to_markdown_link contentFile root false
      let st := { st with idToPath := dictInsertStr st.idToPath d.id rel }
      (.mk d depth pfx (some contentFile) (some rel) [], st)
    else
      let folder := parentPath ++ [slug]
      let st := { st with operations := st.operations ++ [("mkdir", folder)] }
      let contentFile := folder ++ [slug ++ ".html"]
      let (plannedKids, st) := planKids root folder kids.length depth 1 kids st
      let rel := path_to_markdown_link contentFile root false
      let st := { st with idToPath := dictInsertStr st.idToPath d.id rel }
      (.mk d depth pfx (some contentFile) (some rel) plannedKids, st)

/-- The `for idx, child in enumerate(page.children, start=1)` loop of
`_plan_page_recursive`. -/
def planKids (root : FsPath) (folder : FsPath) (total : Nat) (depth : Nat) :
    Nat → List PageT → PlannerState → List PlannedPage × PlannerState
  | _, [], st => ([], st)
  | idx, k :: ks, st =>
    let (pk, st1) := planPageRec root k folder (format_order_pfx idx total) (depth + 1) st
    let (rest, st2) := planKids root folder total depth (idx + 1) ks st1
    (pk :: rest, st2)
end

/-- The `for idx, page in enumerate(section.root_pages, start=1)` loop of
`plan_pages`. -/
def planRoots (root secPath : FsPath) (total : Nat) :
    Nat → List PageT → PlannerState → List PlannedPage × PlannerState
  | _, [], st => ([], st)
  | idx, t :: ts, st =>
    let (p, st1) := planPageRec root t secPath (format_order_pfx idx total) 0 st
    let (rest, st2) := planRoots root secPath total (idx + 1) ts st1
    (p :: rest, st2)

/-- The orphan loop body of `plan_pages`: an orphan page is planned as a
plain file `<slug>.html` directly inside the section folder; its children
are left untouched. -/
def planOrphan (root secPath : FsPath) (pfx : String) (t : PageT)
    (st : PlannerState) : PlannedPage × PlannerState :=
  match t with
  | .mk d kids =>
    let slug := slugify d.title
    let contentFile := secPath ++ [slug ++ ".html"]
    let rel := path_to_markdown_link contentFile root false
    (.mk d 0 pfx (some contentFile) (some rel) (kids.map unplannedPage),
      { st with idToPath := dictInsertStr st.idToPath d.id rel })

/-- The `for idx, page in enumerate(section.orphan_pages, start=1)` loop. -/
def planOrphans (root secPath : FsPath) (total : Nat) :
    Nat → List PageT → PlannerState → List PlannedPage × PlannerState
  | _, [], st => ([], st)
  | idx, t :: ts, st =>
    let (p, st1) := planOrphan root secPath (format_order_pfx idx total) t st
    let (rest, st2) := planOrphans root secPath total (idx + 1) ts st1
    (p :: rest, st2)

/-- `FilesystemLayoutPlanner.plan_pages` for a section whose folder was
resolved to `secPath`: plan every root-page tree, then every orphan page. -/
def plan_pages (root secPath : FsPath) (roots orphans : List PageT)
    (st : PlannerState) : List PlannedPage × List PlannedPage × PlannerState :=
  let (plannedRoots, st1) := planRoots root secPath roots.length 1 roots st
  let (plannedOrphans, st2) := planOrphans root secPath orphans.length 1 orphans st1
  (plannedRoots, plannedOrphans, st2)

/-- `FilesystemLayoutPlanner.plan_notebook`: resolve the notebook folder and
record its `mkdir`. -/
def plan_notebook (root : FsPath) (name : String) (st : PlannerState) :
    FsPath × PlannerState :=
  let nbPath := root ++ [slugify name]
  (nbPath, { st with operations := st.operations ++ [("mkdir", nbPath)] })

/-- `FilesystemLayoutPlanner.plan_section`: walk down the (slash-separated)
section-group path creating group folders, then the section folder. -/
def plan_section (sectionGroupPath sectionName : String) (parentPath : FsPath)
    (st : PlannerState) : FsPath × PlannerState :=
  let (pp, st1) :=
    if sectionGroupPath == "" then (parentPath, st)
    else
      (sectionGroupPath.splitOn "/").foldl
        (fun acc g =>
          let pp := acc.1 ++ [slugify g]
          (pp, { acc.2 with operations := acc.2.operations ++ [("mkdir", pp)] }))
        (parentPath, st)
  let secPath := pp ++ [slugify sectionName]
  (secPath, { st1 with operations := st1.operations ++ [("mkdir", secPath)] })

/-! ## Input model for `IndexBuilder` (preflight data) -/

/-- An upstream scan error record (passed through opaquely); `dict.get`
with a default is modelled by `Option.getD`. -/
structure ErrorRec where
  context : Option String
  error : Option String
  deriving Repr, DecidableEq

/-- The `account_info` dict (keys `displayName`, `mail`). -/
structure Account where
  displayName : Option String
  mail : Option String
  deriving Repr, DecidableEq

/-- The `self.stats` dict of `IndexBuilder`. -/
structure Stats where
  notebooks : Nat
  sectionGroups : Nat
  sections : Nat
  pages : Nat
  orphans : Nat
  parentPages : Nat
  childPages : Nat
  deriving Repr, DecidableEq

/-- A section dict from preflight data. -/
structure RawSection where
  id : String
  name : String
  pages : List RawPage
  errors : List ErrorRec
  deriving Repr, DecidableEq

/-- A section-group dict from preflight data (groups nest). -/
inductive RawGroup where
  | mk (name : String) (sections : List RawSection) (groups : List RawGroup)

/-- Name of a section group. -/
def RawGroup.name : RawGroup → String
  | .mk n _ _ => n

/-- Sections directly inside a section group. -/
def RawGroup.sections : RawGroup → List RawSection
  | .mk _ s _ => s

/-- Nested section groups. -/
def RawGroup.groups : RawGroup → List RawGroup
  | .mk _ _ g => g

/-- A notebook dict from preflight data. -/
structure RawNotebook where
  id : String
  name : String
  createdDateTime : Option String
  lastModifiedDateTime : Option String
  sections : List RawSection
  sectionGroups : List RawGroup

/-- The preflight data consumed by `IndexBuilder`. -/
structure Preflight where
  notebooks : List RawNotebook
  errors : List ErrorRec
  scanTimestamp : Option String

/-- A processed `SectionNode`. -/
structure SectionOut where
  id : String
  name : String
  notebookId : String
  notebookName : String
  sectionGroupPath : String
  pages : List PageData
  rootPages : List PlannedPage
  orphanPages : List PlannedPage
  resolvedPath : Option FsPath

/-- A processed `NotebookNode`. -/
structure NotebookOut where
  id : String
  name : String
  createdDateTime : Option String
  lastModifiedDateTime : Option String
  sections : List SectionOut
  sectionGroups : List RawGroup
  resolvedPath : Option FsPath

/-! ## `IndexGenerator` -/

/-- Constructor arguments of `IndexGenerator`. -/
structure GenCtx where
  exportRoot : FsPath
  scanTimestamp : String
  account : Account
  tenant : String
  scope : String

/-- Python `s * n` for strings: `n` copies concatenated. -/
def dupStr (n : Nat) (s : String) : String := String.join (List.replicate n s)

/-- `IndexGenerator._make_folder_link`. -/
def makeFolderLink (ctx : GenCtx) (path : Option FsPath) (title : String) : String :=
  let display := safe_link_label title
  match path with
  | none => "**" ++ display ++ "**"
  | some p =>
    "[" ++ display ++ "](" ++ path_to_markdown_link p ctx.exportRoot true ++ "/)"

/-- `IndexGenerator._make_page_link`. -/
def makePageLink (ctx : GenCtx) (p : FsPath) (title : String) : String :=
  "[" ++ safe_link_label title ++ "](" ++ path_to_markdown_link p ctx.exportRoot true ++ ")"

/-- `IndexGenerator._append_page_link`: one TOC bullet for a page. -/
def pageLinkLine (ctx : GenCtx) (page : PlannedPage) (indent : Nat)
    (isOrphan : Bool) : String :=
  let indentStr := dupStr indent "  "
  let link :=
    match page.resolvedPath with
    | some p => makePageLink ctx p page.data.title
    | none => page.data.title
  let pfx := if page.orderPfx == "" then "" else page.orderPfx ++ "."
  let childInd :=
    if page.children.isEmpty then ""
    else " (+" ++ toString page.children.length ++ " children)"
  let orphanInd :=
    match isOrphan, page.data.orphanReason with
    | true, some r =>
      if r == "" then "" else " \u201A\u00F6\u2020\u00D4\u220F\u00E8 _" ++ r ++ "_"
    | _, _ => ""
  indentStr ++ "- " ++ pfx ++ " " ++ link ++ childInd ++ orphanInd

mutual
/-- `IndexGenerator._append_page_tree`: a page bullet followed by its
children, one indent level deeper. -/
def pageTreeLines (ctx : GenCtx) : PlannedPage → Nat → List String
  | .mk d dep pfx rp rel kids, indent =>
    pageLinkLine ctx (.mk d dep pfx rp rel kids) indent false ::
      pageTreeLinesList ctx kids (indent + 1)

/-- `pageTreeLines` over a list of children. -/
def pageTreeLinesList (ctx : GenCtx) : List PlannedPage → Nat → List String
  | [], _ => []
  | p :: ps, indent => pageTreeLines ctx p indent ++ pageTreeLinesList ctx ps indent
end

/-- `IndexGenerator._append_section_toc`. -/
def sectionTocLines (ctx : GenCtx) (sec : SectionOut) : List String :=
  let secLink := makeFolderLink ctx sec.resolvedPath sec.name
  let groupLines :=
    if sec.sectionGroupPath == "" then []
    else ["#### \uF8FF\u00FC\u00EC\u00C5 " ++ sec.sectionGroupPath, ""]
  let orphanCount := sec.orphanPages.length
  let summary := "(" ++ toString sec.pages.length ++ " pages" ++
    (if 0 < orphanCount then ", " ++ toString orphanCount ++ " orphaned" else "") ++ ")"
  groupLines ++ ["- \uF8FF\u00FC\u00EC\u00EB " ++ secLink ++ " " ++ summary]
    ++ sec.rootPages.flatMap (fun p => pageTreeLines ctx p 1)
    ++ (if sec.orphanPages.isEmpty then []
        else ["", "  - **\u201A\u00F6\u2020\u00D4\u220F\u00E8 Orphaned Pages**"]
          ++ sec.orphanPages.map (fun p => pageLinkLine ctx p 2 true))
    ++ [""]

/-- `IndexGenerator._append_notebook_toc`. -/
def notebookTocLines (ctx : GenCtx) (nb : NotebookOut) : List String :=
  ("### \uF8FF\u00FC\u00EC\u00EC " ++ makeFolderLink ctx nb.resolvedPath nb.name) :: "" ::
    nb.sections.flatMap (sectionTocLines ctx) ++ [""]

/-- `IndexGenerator.generate_index_md`. -/
def generate_index_md (ctx : GenCtx) (notebooks : List NotebookOut)
    (totals : Stats) (errors : List ErrorRec) : String :=
  let header : List String := [
    "# OneNote Export Index",
    "",
    "**Generated:** " ++ ctx.scanTimestamp,
    "**Account:** " ++ ctx.account.displayName.getD "Unknown",
    "**Email:** " ++ ctx.account.mail.getD "Unknown",
    "**Tenant:** " ++ ctx.tenant,
    "**Scope:** " ++ ctx.scope,
    "",
    "## Summary",
    "",
    "| Metric | Count |",
    "|--------|-------|",
    "| Notebooks | " ++ toString totals.notebooks ++ " |",
    "| Section Groups | " ++ toString totals.sectionGroups ++ " |",
    "| Sections | " ++ toString totals.sections ++ " |",
    "| Pages | " ++ toString totals.pages ++ " |",
    "| Orphaned Pages | " ++ toString totals.orphans ++ " |",
    ""]
  let errLines :=
    if errors.isEmpty then []
    else
      ["## \u201A\u00F6\u2020\u00D4\u220F\u00E8 Errors During Scan", ""]
      ++ (errors.take 20).map (fun e =>
            "- " ++ e.context.getD "Unknown" ++ ": " ++ e.error.getD "Unknown")
      ++ (if 20 < errors.length then
            ["- ... and " ++ toString (errors.length - 20) ++ " more errors"]
          else [])
      ++ [""]
  let toc := ["## Table of Contents", ""] ++ notebooks.flatMap (notebookTocLines ctx)
  String.intercalate "\n" (header ++ errLines ++ toc)

/-- A serialized page dict of `index.json` (`_serialize_page`). -/
inductive JPage where
  | mk (pageId title : String)
      (createdDateTime lastModifiedDateTime parentPageId : Option String)
      (level order : Int) (depth : Nat) (orderPfx : String)
      (resolvedPath relativePathFromRoot : Option String)
      (isOrphan : Bool) (orphanReason : Option String) (children : List JPage)

mutual
/-- `IndexGenerator._serialize_page`. -/
def serializePage (isOrphan : Bool) : PlannedPage → JPage
  | .mk d depth pfx rp rel kids =>
    .mk d.id d.title d.createdDateTime d.lastModifiedDateTime d.parentPageId
      d.level d.order depth pfx (rp.map pathStr) rel
      (isOrphan || d.isOrphan) d.orphanReason (serializePages kids)

/-- `_serialize_page` over a children list (children always serialize with
`is_orphan=False`). -/
def serializePages : List PlannedPage → List JPage
  | [] => []
  | p :: ps => serializePage false p :: serializePages ps
end

/-- A serialized section dict of `index.json` (`_serialize_section`). -/
structure JSection where
  sectionId : String
  name : String
  notebookId : String
  sectionGroupPath : String
  resolvedPath : Option String
  pageCount : Nat
  orphanCount : Nat
  pages : List JPage
  orphans : List JPage

/-- `IndexGenerator._serialize_section`. -/
def serializeSection (sec : SectionOut) : JSection :=
  ⟨sec.id, sec.name, sec.notebookId, sec.sectionGroupPath,
    sec.resolvedPath.map pathStr, sec.pages.length, sec.orphanPages.length,
    sec.rootPages.map (serializePage false),
    sec.orphanPages.map (serializePage true)⟩

/-- A serialized notebook dict of `index.json` (`_serialize_notebook`). -/
structure JNotebook where
  notebookId : String
  name : String
  createdDateTime : Option String
  lastModifiedDateTime : Option String
  resolvedPath : Option String
  sections : List JSection
  sectionGroups : List RawGroup

/-- `IndexGenerator._serialize_notebook`. -/
def serializeNotebook (nb : NotebookOut) : JNotebook :=
  ⟨nb.id, nb.name, nb.createdDateTime, nb.lastModifiedDateTime,
    nb.resolvedPath.map pathStr, nb.sections.map serializeSection,
    nb.sectionGroups⟩

/-- The `index.json` top-level structure. -/
structure JIndex where
  version : String
  scan_timestamp : String
  account : Account
  tenant : String
  scope : String
  totals : Stats
  errors : List ErrorRec
  id_to_path_map : List (String × String)
  notebooks : List JNotebook

/-- `IndexGenerator.generate_index_json`. -/
def generate_index_json (ctx : GenCtx) (notebooks : List NotebookOut)
    (idToPath : List (String × String)) (totals : Stats)
    (errors : List ErrorRec) : JIndex :=
  ⟨"3.1", ctx.scanTimestamp, ctx.account, ctx.tenant, ctx.scope, totals,
    errors, idToPath, notebooks.map serializeNotebook⟩

/-! ## `IndexBuilder` (orchestrator) -/

/-- Mutable state threaded through `IndexBuilder`'s processing: the layout
planner, the running totals and the (ultimately discarded, see `build`)
per-section error accumulator. -/
structure BuildState where
  planner : PlannerState
  stats : Stats
  errorsAcc : List ErrorRec

mutual
/-- One step of the nested `count_hierarchy` helper of `_process_section`:
count this page if it has children, then descend. -/
def countHierOne : PageT → Nat × Nat → Nat × Nat
  | .mk _ kids, acc =>
    let acc1 := if kids.isEmpty then acc else (acc.1 + 1, acc.2 + kids.length)
    countHier kids acc1

/-- `count_hierarchy`: walk the resolved root forest counting parent pages
and their direct children. -/
def countHier : List PageT → Nat × Nat → Nat × Nat
  | [], acc => acc
  | t :: ts, acc => countHier ts (countHierOne t acc)
end

/-- `IndexBuilder._process_section`. -/
def processSection (root : FsPath) (notebookId notebookName : String)
    (parentPath : FsPath) (groupPath : String) (sec : RawSection)
    (bs : BuildState) : SectionOut × BuildState :=
  let (secPath, pst) := plan_section groupPath sec.name parentPath bs.planner
  let stats1 := { bs.stats with sections := bs.stats.sections + 1 }
  let bp := buildPages sec.pages
  let stats2 := { stats1 with
    pages := stats1.pages + bp.allPages.length
    orphans := stats1.orphans + bp.orphans.length }
  let (pp, cp) := countHier bp.roots (stats2.parentPages, stats2.childPages)
  let stats3 := { stats2 with parentPages := pp, childPages := cp }
  let (plannedRoots, plannedOrphans, pst2) :=
    plan_pages root secPath bp.roots bp.orphans pst
  let errs := if sec.errors.isEmpty then bs.errorsAcc else bs.errorsAcc ++ sec.errors
  (⟨sec.id, sec.name, notebookId, notebookName, groupPath, bp.allPages,
      plannedRoots, plannedOrphans, some secPath⟩,
    ⟨pst2, stats3, errs⟩)

/-- The section loop of `_process_notebook` / `_process_section_groups`. -/
def processSections (root : FsPath) (nbId nbName : String) (parentPath : FsPath)
    (groupPath : String) :
    List RawSection → BuildState → List SectionOut × BuildState
  | [], bs => ([], bs)
  | s :: ss, bs =>
    let (so, bs1) := processSection root nbId nbName parentPath groupPath s bs
    let (rest, bs2) := processSections root nbId nbName parentPath groupPath ss bs1
    (so :: rest, bs2)

mutual
/-- One iteration of `IndexBuilder._process_section_groups`: count the
group, process its sections under the extended group path, then recurse
into its nested groups. -/
def processGroupOne (root : FsPath) (nbId nbName : String) (parentPath : FsPath) :
    RawGroup → String → BuildState → List SectionOut × BuildState
  | .mk gname gsections ggroups, groupPath, bs =>
    let newPath := if groupPath == "" then gname else groupPath ++ "/" ++ gname
    let bs1 := { bs with stats := { bs.stats with
      sectionGroups := bs.stats.sectionGroups + 1 } }
    let (secs1, bs2) := processSections root nbId nbName parentPath newPath gsections bs1
    let (secs2, bs3) := processGroups root nbId nbName parentPath ggroups newPath bs2
    (secs1 ++ secs2, bs3)

/-- `IndexBuilder._process_section_groups`: recursively process section
groups, extending the slash-joined group path. -/
def processGroups (root : FsPath) (nbId nbName : String) (parentPath : FsPath) :
    List RawGroup → String → BuildState → List SectionOut × BuildState
  | [], _, bs => ([], bs)
  | g :: gs, groupPath, bs =>
    let (secs1, bs1) := processGroupOne root nbId nbName parentPath g groupPath bs
    let (secs2, bs2) := processGroups root nbId nbName parentPath gs groupPath bs1
    (secs1 ++ secs2, bs2)
end

/-- `IndexBuilder._process_notebook`. -/
def processNotebook (root : FsPath) (nb : RawNotebook) (bs : BuildState) :
    NotebookOut × BuildState :=
  let (nbPath, pst) := plan_notebook root nb.name bs.planner
  let bs1 : BuildState :=
    ⟨pst, { bs.stats with notebooks := bs.stats.notebooks + 1 }, bs.errorsAcc⟩
  let (direct, bs2) := processSections root nb.id nb.name nbPath "" nb.sections bs1
  let (grouped, bs3) := processGroups root nb.id nb.name nbPath nb.sectionGroups "" bs2
  (⟨nb.id, nb.name, nb.createdDateTime, nb.lastModifiedDateTime,
      direct ++ grouped, nb.sectionGroups, some nbPath⟩, bs3)

/-- The notebook loop of `IndexBuilder.build`. -/
def processNotebooks (root : FsPath) :
    List RawNotebook → BuildState → List NotebookOut × BuildState
  | [], bs => ([], bs)
  | nb :: nbs, bs =>
    let (no, bs1) := processNotebook root nb bs
    let (rest, bs2) := processNotebooks root nbs bs1
    (no :: rest, bs2)

/-- The `IndexBuildResult` dataclass. -/
structure IndexBuildOut where
  notebooks : List NotebookOut
  index_md_content : String
  index_json_data : JIndex
  id_to_path_map : List (String × String)
  filesystem_ops : List (String × FsPath)
  stats : Stats
  errors : List ErrorRec

/-- The initial `IndexBuilder` state set up in `__init__`. -/
def initBuildState : BuildState :=
  ⟨⟨[], []⟩, ⟨0, 0, 0, 0, 0, 0, 0⟩, []⟩

/-- `IndexBuilder(...).build()`. The wall clock enters only through the
`scan_timestamp` default `datetime.now().isoformat()`, modelled by the
explicit `now` argument; after processing the notebooks, `self.errors` is
reassigned to the preflight error list (discarding the per-section
accumulator), and both index documents are generated. -/
def IndexBuilder_build (exportRoot : FsPath) (preflight : Preflight)
    (account : Account) (tenant scope : String) (now : String) : IndexBuildOut :=
  let ts := preflight.scanTimestamp.getD now
  let (nbs, bs) := processNotebooks exportRoot preflight.notebooks initBuildState
  let errors := preflight.errors
  let ctx : GenCtx := ⟨exportRoot, ts, account, tenant, scope⟩
  let md := generate_index_md ctx nbs bs.stats errors
  let js := generate_index_json ctx nbs bs.planner.idToPath bs.stats errors
  ⟨nbs, md, js, bs.planner.idToPath, bs.planner.operations, bs.stats, errors⟩

/-! ## `validate_index_links` -/

/-- A missing-link record produced by `validate_index_links` (the `context`
dict keys flattened; keys absent from a given context are `none`). -/
structure MissingLink where
  target : String
  relativeTarget : String
  notebookId : Option String
  notebookName : Option String
  sectionId : Option String
  sectionName : Option String
  pageId : Option String
  pageTitle : Option String
  context : String
  deriving Repr, DecidableEq

/-- The nested `check_path` helper: a `None` path is silently skipped; an
assigned path that does not exist on disk yields one record. -/
def checkPath (fs : FsPath → Bool) (root : FsPath) (path : Option FsPath)
    (mkRec : String → String → MissingLink) : List MissingLink :=
  match path with
  | none => []
  | some p =>
    if fs p then []
    else
      let relTarget :=
        if pathStarts root p then
          if p.length == root.length then "." else pathStr (p.drop root.length)
        else pathStr p
      [mkRec (pathStr p) relTarget]

mutual
/-- One iteration of the nested `check_pages` helper: check this page's
resolved path, then (when it has children) recurse into them. -/
def checkPageOne (fs : FsPath → Bool) (root : FsPath)
    (nbId nbName sId sName : String) :
    PlannedPage → String → List MissingLink
  | .mk d depth pfx rp rel kids, parentCtx =>
    let ctx := "page '" ++ d.title ++ "' in " ++ parentCtx
    let recs := checkPath fs root rp (fun t rt =>
      ⟨t, rt, some nbId, some nbName, some sId, some sName,
        some d.id, some d.title, ctx⟩)
    let kidRecs :=
      if kids.isEmpty then []
      else checkPages fs root nbId nbName sId sName kids ("page '" ++ d.title ++ "'")
    recs ++ kidRecs

/-- The nested `check_pages` helper: check every page's resolved path and
recurse into children. -/
def checkPages (fs : FsPath → Bool) (root : FsPath)
    (nbId nbName sId sName : String) :
    List PlannedPage → String → List MissingLink
  | [], _ => []
  | p :: ps, parentCtx =>
    checkPageOne fs root nbId nbName sId sName p parentCtx ++
      checkPages fs root nbId nbName sId sName ps parentCtx
end

/-- `validate_index_links(export_root, result)`: walk every notebook folder,
section folder and (recursively) page file, reporting planned paths missing
from the filesystem `fs`. -/
def validate_index_links (fs : FsPath → Bool) (root : FsPath)
    (notebooks : List NotebookOut) : List MissingLink :=
  notebooks.flatMap (fun nb =>
    checkPath fs root nb.resolvedPath (fun t rt =>
      ⟨t, rt, some nb.id, some nb.name, none, none, none, none,
        "notebook '" ++ nb.name ++ "'"⟩)
    ++ nb.sections.flatMap (fun sec =>
      checkPath fs root sec.resolvedPath (fun t rt =>
        ⟨t, rt, some nb.id, some nb.name, some sec.id, some sec.name, none, none,
          "section '" ++ sec.name ++ "' in notebook '" ++ nb.name ++ "'"⟩)
      ++ checkPages fs root nb.id nb.name sec.id sec.name sec.rootPages
          ("section '" ++ sec.name ++ "'")
      ++ checkPages fs root nb.id nb.name sec.id sec.name sec.orphanPages
          ("orphans in section '" ++ sec.name ++ "'")))

/-! ## Derived notions used by the verification -/

mutual
/-- All ids in a resolved page tree, root first. -/
def flattenIds : PageT → List String
  | .mk d kids => d.id :: flattenIdsList kids

/-- All ids in a forest of resolved page trees. -/
def flattenIdsList : List PageT → List String
  | [] => []
  | t :: ts => flattenIds t ++ flattenIdsList ts
end

/-- Ids strictly below the root of a resolved page tree. -/
def strictDescIds (t : PageT) : List String := flattenIdsList t.children

mutual
/-- Check that no node of a resolved tree recurs among its own strict
descendants. -/
def noSelfDescB : PageT → Bool
  | .mk d kids =>
    !((flattenIdsList kids).contains d.id) && noSelfDescList kids

/-- `noSelfDescB` over a forest. -/
def noSelfDescList : List PageT → Bool
  | [] => true
  | t :: ts => noSelfDescB t && noSelfDescList ts
end

/-- Fuel-bounded strict-descendant closure of the children adjacency. -/
def strictReach (childrenOf : String → List String) : Nat → String → List String
  | 0, _ => []
  | fuel + 1, i => (childrenOf i).flatMap (fun c => c :: strictReach childrenOf fuel c)

/-- The relationship-building state after the first `k` iterations of
`_build_relationships_from_levels` over the order-sorted node list. -/
def relStateAfter (nodes : List RawPage) (k : Nat) : TBState :=
  ((sortByOrder nodes).take k).foldl tbStep TBState.init

mutual
/-- Whether every node of a planned tree carries a resolved path. -/
def allAssignedB : PlannedPage → Bool
  | .mk _ _ _ rp _ kids => rp.isSome && allAssignedList kids

/-- `allAssignedB` over a forest. -/
def allAssignedList : List PlannedPage → Bool
  | [] => true
  | p :: ps => allAssignedB p && allAssignedList ps
end

mutual
/-- Whether every node of a planned tree lacks a resolved path. -/
def noneAssignedB : PlannedPage → Bool
  | .mk _ _ _ rp _ kids => rp.isNone && noneAssignedList kids

/-- `noneAssignedB` over a forest. -/
def noneAssignedList : List PlannedPage → Bool
  | [] => true
  | p :: ps => noneAssignedB p && noneAssignedList ps
end

mutual
/-- Post-order id listing of a page tree (children first, then the node):
the key insertion order of `_plan_page_recursive`. -/
def postIds : PageT → List String
  | .mk d kids => postIdsList kids ++ [d.id]

/-- `postIds` over a forest. -/
def postIdsList : List PageT → List String
  | [] => []
  | t :: ts => postIds t ++ postIdsList ts
end

mutual
/-- The folder/file layout contract of `_plan_page_recursive` relative to
the directory of the parent container: a page with children resolves to
`<dir>/<slug>/<slug>.html` with the children laid out under `<dir>/<slug>`,
a childless page resolves to `<dir>/<slug>.html`. -/
def planShapeOkB : FsPath → PlannedPage → Bool
  | parentDir, .mk d _ _ rp _ kids =>
    let slug := slugify d.title
    if kids.isEmpty then rp == some (parentDir ++ [slug ++ ".html"])
    else (rp == some (parentDir ++ [slug, slug ++ ".html"])) &&
      planShapeOkList (parentDir ++ [slug]) kids

/-- `planShapeOkB` over a forest sharing one parent directory. -/
def planShapeOkList : FsPath → List PlannedPage → Bool
  | _, [] => true
  | parentDir, p :: ps => planShapeOkB parentDir p && planShapeOkList parentDir ps
end

mutual
/-- All resolved-path targets (as strings) assigned in a planned page tree,
including descendants. -/
def pageTargetsTree : PlannedPage → List String
  | .mk _ _ _ rp _ kids =>
    (match rp with | some t => [pathStr t] | none => []) ++ pageTargets kids

/-- All resolved-path targets assigned in a planned page forest. -/
def pageTargets : List PlannedPage → List String
  | [] => []
  | p :: ps => pageTargetsTree p ++ pageTargets ps
end

/-- All resolved-path targets assigned anywhere in a processed notebook
forest: notebook folders, section folders and page files. -/
def assignedTargets (notebooks : List NotebookOut) : List String :=
  notebooks.flatMap (fun nb =>
    (match nb.resolvedPath with | some t => [pathStr t] | none => []) ++
      nb.sections.flatMap (fun sec =>
        (match sec.resolvedPath with | some t => [pathStr t] | none => []) ++
          pageTargets sec.rootPages ++ pageTargets sec.orphanPages))

/-- Membership in the dot-or-whitespace strip set named by the claim that
sanitization strips leading/trailing dots and whitespace. -/
def isDotWs (c : Char) : Bool := c == '.' || pyWhitespace.contains c

/-- Modelled from the spec: sanitization as worded by the specification —
replace the forbidden characters with `_`, strip leading/trailing dots and
whitespace, truncate to `maxLength` re-stripping trailing dots/whitespace,
with empty or all-stripped input yielding `"untitled"`. -/
def sanitizeSpecWorded (text : String) (maxLength : Nat) : String :=
  let t := (replaceForbidden text.data).dropWhile isDotWs
  let t := (t.reverse.dropWhile isDotWs).reverse
  let t := if maxLength < t.length then ((t.take maxLength).reverse.dropWhile isDotWs).reverse else t
  if t.isEmpty then "untitled" else String.mk t

/-- The corrected sanitization pipeline: like `sanitizeSpecWorded` but
stripping only dots and spaces (`'. '`), exactly the strip set the code
uses. -/
def sanitizeAmendedSpec (text : String) (maxLength : Nat) : String :=
  let replaced := text.data.map (fun c => if forbiddenChars.contains c then '_' else c)
  let stripped := stripDotSpace replaced
  let truncated :=
    if stripped.length ≤ maxLength then stripped
    else rstripDotSpace (stripped.take maxLength)
  if truncated.isEmpty then "untitled" else String.mk truncated

/-- Single-pass character encoding equivalent to the replacement chain of
`md_link_target`. -/
def encChar (c : Char) : List Char :=
  if c == '%' then ['%', '2', '5']
  else if c == ' ' then ['%', '2', '0']
  else if c == '#' then ['%', '2', '3']
  else if c == '?' then ['%', '3', 'F']
  else [c]

/-- When the list starts with `%`, the two following characters must spell
one of the escape codes `25`, `20`, `23`, `3F`. -/
def escHeadOk : List Char → Bool
  | '%' :: a :: b :: _ =>
    ((a == '2') && ((b == '5') || (b == '0') || (b == '3')))
      || ((a == '3') && (b == 'F'))
  | '%' :: _ => false
  | _ => true

/-- Every `%` in the list opens one of the escape sequences `%25`, `%20`,
`%23`, `%3F` (no raw `%` outside an escape sequence). -/
def percentEscaped : List Char → Bool
  | [] => true
  | c :: rest => escHeadOk (c :: rest) && percentEscaped rest

/-- The assigned-parent ancestor chain of a node id (nearest ancestor
first), with recursion fuel; fuel of the node-count always suffices since
positions strictly decrease along the chain. -/
def ancChain (assigned : String → Option String) : Nat → String → List String
  | 0, _ => []
  | fuel + 1, x =>
    match assigned x with
    | none => []
    | some p => p :: ancChain assigned fuel p

/-- The child adjacency of the resolved forest: `b` is a child of `a`. -/
def childEdge (pages : List RawPage) (a b : String) : Prop :=
  b ∈ (treeOut pages).relSt.childrenOf a

/-- Invariant of the `_build_relationships_from_levels` fold after the
first `k` iterations over the order-sorted node list `s`: the stack holds
only processed ids; parent assignments point from processed children to
strictly earlier processed parents; the `children` lists are exactly the
fibers of the assignment and are duplicate-free; orphan flags mark
processed, unattached nodes with the fixed reason; unprocessed ids are
untouched; only positive-level nodes get attached; and every processed
positive-level node was either attached or flagged. -/
structure TBInv (s : List RawPage) (k : Nat) (st : TBState) : Prop where
  stack_mem : ∀ e ∈ st.stack, e.1 ∈ (s.map RawPage.id).take k
  assigned_mem : ∀ c p, st.assigned c = some p →
    p ∈ (s.map RawPage.id).take k ∧ c ∈ (s.map RawPage.id).take k
  assigned_lt : ∀ c p, st.assigned c = some p →
    (s.map RawPage.id).indexOf p < (s.map RawPage.id).indexOf c
  children_iff : ∀ i c, c ∈ st.childrenOf i ↔ st.assigned c = some i
  children_nodup : ∀ i, (st.childrenOf i).Nodup
  orphan_spec : ∀ c, st.orphanFlag c = true →
    c ∈ (s.map RawPage.id).take k ∧ st.assigned c = none ∧
      st.reasonOf c = some noParentReason
  reason_none : ∀ c, st.orphanFlag c = false → st.reasonOf c = none
  untouched_assigned : ∀ c, c ∉ (s.map RawPage.id).take k → st.assigned c = none
  untouched_orphan : ∀ c, c ∉ (s.map RawPage.id).take k → st.orphanFlag c = false
  assigned_level : ∀ c p, st.assigned c = some p → ∀ n ∈ s, n.id = c → 0 < n.level
  handled : ∀ n ∈ s.take k, 0 < n.level →
    st.assigned n.id ≠ none ∨ st.orphanFlag n.id = true

/-! ## Concrete example inputs used by witnesses and counterexamples -/

/-- A minimal raw page record. -/
def exPage (i : String) (lv ord : Int) : RawPage :=
  ⟨i, "T" ++ i, none, none, none, lv, ord⟩

/-- A preflight with one notebook and one section whose pages are an orphan
(`level 1` first in order) with one child (`level 2`). -/
def exPfOrphanChild : Preflight :=
  ⟨[⟨"nb1", "NB", none, none,
      [⟨"s1", "S", [exPage "o" 1 0, exPage "c" 2 1], []⟩], []⟩], [], some "TS"⟩

/-- The build over `exPfOrphanChild`. -/
def exBuildOC : IndexBuildOut :=
  IndexBuilder_build ["root"] exPfOrphanChild ⟨none, none⟩ "t" "sc" "NOW"

/-- Page data for the validator example. -/
def exPd (i : String) : PageData :=
  ⟨i, "T" ++ i, none, none, none, 1, 0, true, some noParentReason⟩

/-- A planner-skipped orphan child: no resolved path. -/
def exChildPlanned : PlannedPage := .mk (exPd "c") 0 "" none none []

/-- A planned orphan page holding the pathless child. -/
def exOrphanPlanned : PlannedPage :=
  .mk (exPd "o") 0 "1" (some ["root", "NB", "S", "To.html"])
    (some "NB/S/To.html") [exChildPlanned]

/-- A processed section/notebook forest for the validator example. -/
def exNbs : List NotebookOut :=
  [⟨"nb", "NB", none, none,
      [⟨"s", "S", "nb", "NB", "", [], [], [exOrphanPlanned], some ["root", "NB", "S"]⟩],
      [], some ["root", "NB"]⟩]

/-- The missing-link record for the orphan page of `exNbs` over the empty
filesystem. -/
def exOrphanRec : MissingLink :=
  ⟨"root/NB/S/To.html", "NB/S/To.html", some "nb", some "NB", some "s",
    some "S", some "o", some "To", "page 'To' in orphans in section 'S'"⟩

/-- The id sequence of the order-sorted node list: the processing order of
`_build_relationships_from_levels`. -/
def sortedIds (pages : List RawPage) : List String :=
  (sortByOrder (createNodes pages)).map RawPage.id

/-- The parent assignment produced by relationship building. -/
def asgOf (pages : List RawPage) : String → Option String :=
  (treeOut pages).relSt.assigned

/-! ## General-purpose lemmas -/

theorem attach_all_iff {α : Type} (l : List α) (f : α → Bool) :
    (l.attach.all fun c => f c.1) = true ↔ ∀ x ∈ l, f x = true := by
  simp [List.all_eq_true]

theorem attach_flatMap_eq {α β : Type} (l : List α) (g : α → List β) :
    (l.attach.flatMap fun c => g c.1) = l.flatMap g := by
  conv_rhs => rw [← List.attach_map_subtype_val l]
  rw [List.flatMap_map]

theorem attach_map_eq {α β : Type} (l : List α) (g : α → β) :
    (l.attach.map fun c => g c.1) = l.map g := by
  conv_rhs => rw [← List.attach_map_subtype_val l]
  rw [List.map_map]
  rfl

/-! ## Layout planner lemmas (claims C5, C6) -/

theorem planShapeOkList_eq_all (parentDir : FsPath) :
    ∀ (ks : List PlannedPage),
      planShapeOkList parentDir ks = ks.all (fun c => planShapeOkB parentDir c) := by
  intro ks
  induction ks with
  | nil => rfl
  | cons p ps ih => rw [planShapeOkList, List.all_cons, ih]

theorem planShapeOkB_mk (parentDir : FsPath) (d : PageData) (dep : Nat)
    (pfx : String) (rp : Option FsPath) (rel : Option String)
    (kids : List PlannedPage) :
    planShapeOkB parentDir (.mk d dep pfx rp rel kids) =
      (if kids.isEmpty then rp == some (parentDir ++ [slugify d.title ++ ".html"])
       else (rp == some (parentDir ++ [slugify d.title, slugify d.title ++ ".html"]))
         && kids.all (fun c => planShapeOkB (parentDir ++ [slugify d.title]) c)) := by
  conv_lhs => rw [planShapeOkB]
  rw [planShapeOkList_eq_all]

theorem planKids_shape_aux (n : Nat)
    (ihrec : ∀ (t : PageT), sizeOf t ≤ n → ∀ (root pp : FsPath) (pfx : String)
      (dep : Nat) (st : PlannerState),
      planShapeOkB pp (planPageRec root t pp pfx dep st).1 = true) :
    ∀ (ks : List PageT), (∀ k ∈ ks, sizeOf k ≤ n) →
      ∀ (root folder : FsPath) (total dep idx : Nat) (st : PlannerState),
        ∀ q ∈ (planKids root folder total dep idx ks st).1,
          planShapeOkB folder q = true := by
  intro ks
  induction ks with
  | nil =>
    intro _ root folder total dep idx st q hq
    simp [planKids] at hq
  | cons k kr ih =>
    intro hsz root folder total dep idx st q hq
    rw [planKids] at hq
    simp only [List.mem_cons] at hq
    rcases hq with h | h
    · subst h
      exact ihrec k (hsz k (by simp)) root folder _ _ st
    · exact ih (fun x hx => hsz x (by simp [hx])) root folder total dep (idx + 1) _ q h

theorem planKids_isEmpty (root folder : FsPath) :
    ∀ (ks : List PageT) (total dep idx : Nat) (st : PlannerState),
      (planKids root folder total dep idx ks st).1.isEmpty = ks.isEmpty := by
  intro ks
  cases ks with
  | nil => intro total dep idx st; rw [planKids]; rfl
  | cons k kr => intro total dep idx st; rw [planKids]; rfl

theorem planPageRec_shape_aux (n : Nat) :
    ∀ (t : PageT), sizeOf t ≤ n → ∀ (root pp : FsPath) (pfx : String)
      (dep : Nat) (st : PlannerState),
      planShapeOkB pp (planPageRec root t pp pfx dep st).1 = true := by
  induction n with
  | zero =>
    intro t ht
    cases t with
    | mk d kids => rw [PageT.mk.sizeOf_spec] at ht; omega
  | succ n ih =>
    intro t ht root pp pfx dep st
    cases t with
    | mk d kids =>
      rw [planPageRec]
      by_cases hk : kids.isEmpty
      · simp only [hk, if_true]
        rw [planShapeOkB_mk]
        simp [hk]
      · simp only [hk, Bool.false_eq_true, if_false]
        have hkid : ∀ k ∈ kids, sizeOf k ≤ n := by
          intro k hkmem
          have h1 := List.sizeOf_lt_of_mem hkmem
          have h2 : sizeOf (PageT.mk d kids) = 1 + sizeOf d + sizeOf kids :=
            PageT.mk.sizeOf_spec d kids
          omega
        have hall := planKids_shape_aux n ih kids hkid root
          (pp ++ [slugify d.title]) kids.length dep 1
          { st with operations := st.operations ++ [("mkdir", pp ++ [slugify d.title])] }
        rw [planShapeOkB_mk]
        have hne : ((planKids root (pp ++ [slugify d.title]) kids.length dep 1 kids
            { st with operations :=
              st.operations ++ [("mkdir", pp ++ [slugify d.title])] }).1).isEmpty
            = false := by
          rw [planKids_isEmpty]
          cases hke : kids.isEmpty
          · rfl
          · exact absurd hke hk
        rw [hne]
        simp only [Bool.false_eq_true, if_false, List.append_assoc]
        refine (Bool.and_eq_true _ _).mpr ⟨by simp, ?_⟩
        rw [List.all_eq_true]
        intro q hq
        exact hall q hq

/-- C5: for every page planned by `_plan_page_recursive` (equivalently,
every non-orphan page: the planner reaches root-forest pages only through
this function), a page with at least one child resolves to
`<parent>/<name>/<name>.html` with its children planned recursively inside
the `<parent>/<name>` folder, and a childless page resolves to
`<parent>/<name>.html` directly under the parent container's directory,
where `<name>` is the sanitized title. -/
theorem claim5_folder_file_consistency (t : PageT) (root parentDir : FsPath)
    (pfx : String) (dep : Nat) (st : PlannerState) :
    planShapeOkB parentDir (planPageRec root t parentDir pfx dep st).1 = true :=
  planPageRec_shape_aux (sizeOf t) t (Nat.le_refl _) root parentDir pfx dep st

theorem planOrphans_spec (root secPath : FsPath) :
    ∀ (orphans : List PageT) (total idx : Nat) (st : PlannerState),
      ((planOrphans root secPath total idx orphans st).1).map PlannedPage.resolvedPath
          = orphans.map (fun t => some (secPath ++ [slugify t.data.title ++ ".html"]))
        ∧ ((planOrphans root secPath total idx orphans st).2).operations
          = st.operations := by
  intro orphans
  induction orphans with
  | nil => intro total idx st; exact ⟨rfl, rfl⟩
  | cons t ts ih =>
    intro total idx st
    cases t with
    | mk d kids =>
      rw [planOrphans]
      simp only [planOrphan, List.map_cons]
      constructor
      · rw [(ih total (idx + 1) _).1]
        rfl
      · rw [(ih total (idx + 1) _).2]

/-- C6: `plan_pages` plans every orphan page of a section as a plain file
`<sanitize(title)>.html` directly inside the section's folder; the orphan
phase never records a `mkdir` (in particular no `__orphans__` subfolder is
ever created for them). -/
theorem claim6_orphan_layout (root secPath : FsPath)
    (roots orphans : List PageT) (st : PlannerState) :
    ((plan_pages root secPath roots orphans st).2.1).map PlannedPage.resolvedPath
        = orphans.map (fun t => some (secPath ++ [slugify t.data.title ++ ".html"]))
      ∧ ((plan_pages root secPath roots orphans st).2.2).operations
        = ((planRoots root secPath roots.length 1 roots st).2).operations := by
  rw [plan_pages]
  exact planOrphans_spec root secPath orphans orphans.length 1 _

/-! ## Determinism of `IndexBuilder.build` (claim C4) -/

/-- C4: `IndexBuilder.build` is deterministic. When the preflight data
carries its externally-supplied `scan_timestamp`, two builds over identical
input produce byte-identical `index.md` strings, structurally identical
`index.json` data, and in fact identical complete results, whatever the
wall clock reads; and when the timestamp is absent, the wall clock enters
the output only as the value of the scan-timestamp field (a build at clock
`now₁` equals a build whose input carries `now₁` as its timestamp). -/
theorem claim4_determinism (exportRoot : FsPath) (preflight : Preflight)
    (account : Account) (tenant scope : String) (ts now₁ now₂ : String) :
    (preflight.scanTimestamp = some ts →
      (IndexBuilder_build exportRoot preflight account tenant scope now₁).index_md_content
          = (IndexBuilder_build exportRoot preflight account tenant scope now₂).index_md_content
        ∧ (IndexBuilder_build exportRoot preflight account tenant scope now₁).index_json_data
          = (IndexBuilder_build exportRoot preflight account tenant scope now₂).index_json_data
        ∧ IndexBuilder_build exportRoot preflight account tenant scope now₁
          = IndexBuilder_build exportRoot preflight account tenant scope now₂)
      ∧ (preflight.scanTimestamp = none →
        IndexBuilder_build exportRoot preflight account tenant scope now₁
          = IndexBuilder_build exportRoot
              { preflight with scanTimestamp := some now₁ } account tenant scope now₂) := by
  constructor
  · intro h
    have : IndexBuilder_build exportRoot preflight account tenant scope now₁
        = IndexBuilder_build exportRoot preflight account tenant scope now₂ := by
      simp only [IndexBuilder_build, h, Option.getD_some]
    exact ⟨by rw [this], by rw [this], this⟩
  · intro h
    simp only [IndexBuilder_build, h, Option.getD_some, Option.getD_none]

/-- Witness for C4 at a concrete input. -/
theorem claim4_witness :
    ((⟨[], [], some "2024-01-01T00:00:00"⟩ : Preflight).scanTimestamp
        = some "2024-01-01T00:00:00")
      ∧ (IndexBuilder_build ["root"] ⟨[], [], some "2024-01-01T00:00:00"⟩
          ⟨some "A", some "a@b"⟩ "t" "s" "clock1").index_md_content
        = (IndexBuilder_build ["root"] ⟨[], [], some "2024-01-01T00:00:00"⟩
          ⟨some "A", some "a@b"⟩ "t" "s" "clock2").index_md_content :=
  ⟨rfl, (claim4_determinism ["root"] ⟨[], [], some "2024-01-01T00:00:00"⟩
    ⟨some "A", some "a@b"⟩ "t" "s" "2024-01-01T00:00:00" "clock1" "clock2").1 rfl |>.1⟩

/-! ## `validate_index_links` lemmas (claim C10) -/

theorem checkPath_mem (fs : FsPath → Bool) (root : FsPath) (path : Option FsPath)
    (mkRec : String → String → MissingLink) (r : MissingLink)
    (hr : r ∈ checkPath fs root path mkRec) :
    ∃ p, path = some p ∧ fs p = false ∧
      r = mkRec (pathStr p)
        (if pathStarts root p then
          (if p.length == root.length then "." else pathStr (p.drop root.length))
         else pathStr p) := by
  cases path with
  | none => simp [checkPath] at hr
  | some p =>
    by_cases hfs : fs p
    · simp [checkPath, hfs] at hr
    · refine ⟨p, rfl, by simpa using hfs, ?_⟩
      simp only [checkPath, hfs, Bool.false_eq_true, if_false, List.mem_singleton] at hr
      exact hr

theorem pageTargets_cons (d : PageData) (dep : Nat) (pfx : String)
    (rp : Option FsPath) (rel : Option String) (kids ps : List PlannedPage) :
    pageTargets (.mk d dep pfx rp rel kids :: ps) =
      (match rp with | some t => [pathStr t] | none => []) ++
        pageTargets kids ++ pageTargets ps := rfl

theorem checkPages_mem_aux (fs : FsPath → Bool) (root : FsPath)
    (nbId nbName sId sName : String) (n : Nat) :
    ∀ (ps : List PlannedPage), sizeOf ps ≤ n →
      ∀ (ctx : String) (r : MissingLink),
        r ∈ checkPages fs root nbId nbName sId sName ps ctx →
        ∃ p, r.target = pathStr p ∧ fs p = false ∧ pathStr p ∈ pageTargets ps := by
  induction n with
  | zero =>
    intro ps hps ctx r hr
    cases ps with
    | nil => simp [checkPages] at hr
    | cons q qs => simp at hps
  | succ n ih =>
    intro ps hps ctx r hr
    cases ps with
    | nil => simp [checkPages] at hr
    | cons q qs =>
      cases q with
      | mk d dep pfx rp rel kids =>
        rw [checkPages, checkPageOne] at hr
        simp only [List.mem_append] at hr
        rcases hr with (hr | hr) | hr
        · obtain ⟨p, hp, hfs, hrec⟩ := checkPath_mem fs root rp _ r hr
          refine ⟨p, by rw [hrec], hfs, ?_⟩
          rw [pageTargets_cons, hp]
          simp
        · by_cases hk : kids.isEmpty
          · simp [hk] at hr
          · simp only [hk, Bool.false_eq_true, if_false] at hr
            have hsz : sizeOf kids ≤ n := by
              have h1 : sizeOf (PlannedPage.mk d dep pfx rp rel kids :: qs)
                  = 1 + sizeOf (PlannedPage.mk d dep pfx rp rel kids) + sizeOf qs := by
                simp [List.cons.sizeOf_spec]
              have h2 : sizeOf (PlannedPage.mk d dep pfx rp rel kids)
                  = 1 + sizeOf d + sizeOf dep + sizeOf pfx + sizeOf rp + sizeOf rel + sizeOf kids :=
                PlannedPage.mk.sizeOf_spec d dep pfx rp rel kids
              have h3 : (1 : Nat) ≤ sizeOf d := by cases d; simp [PageData.mk.sizeOf_spec]; omega
              omega
            obtain ⟨p, hp, hfs, hmem⟩ := ih kids hsz _ r hr
            refine ⟨p, hp, hfs, ?_⟩
            rw [pageTargets_cons]
            simp [hmem]
        · have hsz : sizeOf qs ≤ n := by
            have h1 : sizeOf (PlannedPage.mk d dep pfx rp rel kids :: qs)
                = 1 + sizeOf (PlannedPage.mk d dep pfx rp rel kids) + sizeOf qs := by
              simp [List.cons.sizeOf_spec]
            have h2 : (1 : Nat) ≤ sizeOf (PlannedPage.mk d dep pfx rp rel kids) := by
              rw [PlannedPage.mk.sizeOf_spec]; omega
            omega
          obtain ⟨p, hp, hfs, hmem⟩ := ih qs hsz ctx r hr
          refine ⟨p, hp, hfs, ?_⟩
          rw [pageTargets_cons]
          simp [hmem]

/-- C10: every record returned by `validate_index_links` stems from an
entity that was assigned a resolved path (and whose path is absent from the
filesystem); entities with `resolved_path = None` — in particular every
descendant of an orphan page, which the planner never assigns a path — are
silently skipped and never reported missing. -/
theorem claim10_validate_covers_only_assigned (fs : FsPath → Bool)
    (root : FsPath) (notebooks : List NotebookOut) (r : MissingLink)
    (hr : r ∈ validate_index_links fs root notebooks) :
    ∃ p, r.target = pathStr p ∧ fs p = false ∧
      pathStr p ∈ assignedTargets notebooks := by
  rw [validate_index_links] at hr
  rw [List.mem_flatMap] at hr
  obtain ⟨nb, hnb, hr⟩ := hr
  rw [List.mem_append] at hr
  rcases hr with hr | hr
  · obtain ⟨p, hp, hfs, hrec⟩ := checkPath_mem fs root nb.resolvedPath _ r hr
    refine ⟨p, by rw [hrec], hfs, ?_⟩
    rw [assignedTargets, List.mem_flatMap]
    exact ⟨nb, hnb, by rw [hp]; simp⟩
  · rw [List.mem_flatMap] at hr
    obtain ⟨sec, hsec, hr⟩ := hr
    rw [List.mem_append, List.mem_append] at hr
    have base : ∀ t, t ∈ ((match sec.resolvedPath with
        | some t => [pathStr t] | none => []) ++ pageTargets sec.rootPages
          ++ pageTargets sec.orphanPages) →
        t ∈ assignedTargets notebooks := by
      intro t ht
      rw [assignedTargets, List.mem_flatMap]
      refine ⟨nb, hnb, ?_⟩
      rw [List.mem_append, List.mem_flatMap]
      right
      refine ⟨sec, hsec, ?_⟩
      simpa using ht
    rcases hr with (hr | hr) | hr
    · obtain ⟨p, hp, hfs, hrec⟩ := checkPath_mem fs root sec.resolvedPath _ r hr
      refine ⟨p, by rw [hrec], hfs, base _ ?_⟩
      rw [hp]
      simp
    · obtain ⟨p, hp, hfs, hmem⟩ := checkPages_mem_aux fs root nb.id nb.name
        sec.id sec.name (sizeOf sec.rootPages) sec.rootPages (Nat.le_refl _) _ r hr
      exact ⟨p, hp, hfs, base _ (by simp [hmem])⟩
    · obtain ⟨p, hp, hfs, hmem⟩ := checkPages_mem_aux fs root nb.id nb.name
        sec.id sec.name (sizeOf sec.orphanPages) sec.orphanPages (Nat.le_refl _) _ r hr
      exact ⟨p, hp, hfs, base _ (by simp [hmem])⟩

/-! ## Sanitization and link encoding (claims C7, C8) -/

theorem dropWhile_head_false {p : Char → Bool} :
    ∀ {l rest : List Char} {c : Char}, l.dropWhile p = c :: rest → p c = false := by
  intro l
  induction l with
  | nil => intro rest c h; simp at h
  | cons x xs ih =>
    intro rest c h
    by_cases hx : p x = true
    · rw [List.dropWhile_cons, if_pos hx] at h
      exact ih h
    · rw [List.dropWhile_cons, if_neg hx] at h
      injection h with h1 _
      subst h1
      simpa using hx

theorem rstripDotSpace_eq_nil_iff (l : List Char) :
    rstripDotSpace l = [] ↔ ∀ c ∈ l, isDotSpace c = true := by
  rw [rstripDotSpace, List.reverse_eq_nil_iff, List.dropWhile_eq_nil_iff]
  constructor
  · intro h c hc
    exact h c (List.mem_reverse.mpr hc)
  · intro h c hc
    exact h c (List.mem_reverse.mp hc)

theorem rstripDotSpace_isPre (l : List Char) : rstripDotSpace l <+: l := by
  rw [← List.reverse_suffix, rstripDotSpace, List.reverse_reverse]
  exact List.dropWhile_suffix _

theorem mem_rstripDotSpace {l : List Char} {c : Char}
    (h : c ∈ rstripDotSpace l) : c ∈ l := by
  rw [rstripDotSpace] at h
  rw [List.mem_reverse] at h
  exact List.mem_reverse.mp ((List.dropWhile_sublist _).mem h)

theorem mem_stripDotSpace {l : List Char} {c : Char}
    (h : c ∈ stripDotSpace l) : c ∈ l := by
  rw [stripDotSpace] at h
  exact (List.dropWhile_sublist _).mem (mem_rstripDotSpace h)

theorem not_forbidden_of_mem_replace {l : List Char} {c : Char}
    (h : c ∈ replaceForbidden l) : c ∉ forbiddenChars := by
  rw [replaceForbidden, List.mem_map] at h
  obtain ⟨a, _, ha⟩ := h
  by_cases hf : forbiddenChars.contains a = true
  · rw [if_pos hf] at ha
    subst ha
    decide
  · rw [if_neg hf] at ha
    subst ha
    intro hmem
    exact hf (List.elem_iff.mpr hmem)

theorem mem_sanitize {t : String} {n : Nat} {c : Char}
    (hc : c ∈ (sanitize_path_name t n).data) :
    c ∈ "untitled".data ∨ c ∈ replaceForbidden t.data := by
  rw [sanitize_path_name] at hc
  dsimp only at hc
  by_cases ht : t = ""
  · rw [if_pos ht] at hc
    exact .inl hc
  · rw [if_neg ht] at hc
    by_cases hlen : n < (stripDotSpace (replaceForbidden t.data)).length
    · rw [if_pos hlen] at hc
      by_cases hnil : rstripDotSpace ((stripDotSpace (replaceForbidden t.data)).take n) = []
      · rw [if_pos hnil] at hc
        exact .inl hc
      · rw [if_neg hnil] at hc
        refine .inr (mem_stripDotSpace ((List.take_sublist _ _).mem (mem_rstripDotSpace hc)))
    · rw [if_neg hlen] at hc
      by_cases hnil : stripDotSpace (replaceForbidden t.data) = []
      · rw [if_pos hnil] at hc
        exact .inl hc
      · rw [if_neg hnil] at hc
        exact .inr (mem_stripDotSpace hc)

theorem expandChar_append (old : Char) (new a b : List Char) :
    expandChar old new (a ++ b) = expandChar old new a ++ expandChar old new b :=
  List.flatMap_append a b _

theorem mem_expandChar {old : Char} {new l : List Char} {c : Char}
    (hc : c ∈ expandChar old new l) : c ∈ new ∨ (c ∈ l ∧ c ≠ old) := by
  rw [expandChar, List.mem_flatMap] at hc
  obtain ⟨a, ha, hc⟩ := hc
  by_cases h : (a == old) = true
  · rw [if_pos h] at hc
    exact .inl hc
  · rw [if_neg h] at hc
    rw [List.mem_singleton] at hc
    subst hc
    exact .inr ⟨ha, by simpa using h⟩

theorem encode_chain (l : List Char) :
    expandChar '?' ['%', '3', 'F'] (expandChar '#' ['%', '2', '3']
      (expandChar ' ' ['%', '2', '0'] (expandChar '%' ['%', '2', '5'] l)))
      = l.flatMap encChar := by
  induction l with
  | nil => rfl
  | cons c cs ih =>
    have hcons : expandChar '%' ['%', '2', '5'] (c :: cs)
        = (if (c == '%') = true then ['%', '2', '5'] else [c])
          ++ expandChar '%' ['%', '2', '5'] cs := rfl
    rw [List.flatMap_cons, hcons, expandChar_append, expandChar_append,
      expandChar_append, ih]
    congr 1
    by_cases h1 : c = '%'
    · subst h1; rfl
    by_cases h2 : c = ' '
    · subst h2; rfl
    by_cases h3 : c = '#'
    · subst h3; rfl
    by_cases h4 : c = '?'
    · subst h4; rfl
    simp [expandChar, encChar, h1, h2, h3, h4]

/-- The character the backslash-normalization pass maps `c` to. -/
def slashFix (c : Char) : Char := if c == '\\' then '/' else c

theorem md_link_target_eq (p : String) :
    md_link_target p = String.mk ((p.data.map slashFix).flatMap encChar) := by
  by_cases hp : p = ""
  · subst hp; rfl
  · rw [md_link_target, if_neg hp]
    dsimp only
    rw [encode_chain]
    rfl

theorem mem_encChar {a c : Char} (h : c ∈ encChar a) :
    (c = a ∧ a ≠ '%' ∧ a ≠ ' ' ∧ a ≠ '#' ∧ a ≠ '?')
      ∨ c ∈ ['%', '2', '5', '0', '3', 'F'] := by
  rw [encChar] at h
  by_cases h1 : a = '%'
  · subst h1; simp at h; rcases h with h | h | h <;> simp [h]
  by_cases h2 : a = ' '
  · subst h2; simp at h; rcases h with h | h | h <;> simp [h]
  by_cases h3 : a = '#'
  · subst h3; simp at h; rcases h with h | h | h <;> simp [h]
  by_cases h4 : a = '?'
  · subst h4; simp at h; rcases h with h | h | h <;> simp [h]
  · simp only [h1, h2, h3, h4, beq_iff_eq, if_false, if_neg, List.mem_singleton] at h
    · exact .inl ⟨h, h1, h2, h3, h4⟩

theorem escHeadOk_cons_ne {c : Char} (rest : List Char) (h : c ≠ '%') :
    escHeadOk (c :: rest) = true := by
  unfold escHeadOk
  split
  · rename_i heq
    injection heq with h1 _
    exact absurd h1 h
  · rename_i hne heq
    injection heq with h1 _
    exact absurd h1 h
  · rfl

theorem percentEscaped_cons {c : Char} {rest : List Char} :
    percentEscaped (c :: rest) = (escHeadOk (c :: rest) && percentEscaped rest) :=
  rfl

theorem percentEscaped_flatMap (l : List Char) :
    percentEscaped (l.flatMap encChar) = true := by
  induction l with
  | nil => rfl
  | cons c cs ih =>
    rw [List.flatMap_cons]
    by_cases h1 : c = '%'
    · subst h1
      rw [show encChar '%' = ['%', '2', '5'] from rfl, List.cons_append,
        List.cons_append, List.cons_append, List.nil_append,
        percentEscaped_cons, percentEscaped_cons, percentEscaped_cons]
      rw [show escHeadOk ('%' :: '2' :: '5' :: cs.flatMap encChar) = true from rfl,
        escHeadOk_cons_ne _ (by decide), escHeadOk_cons_ne _ (by decide), ih]
      rfl
    by_cases h2 : c = ' '
    · subst h2
      rw [show encChar ' ' = ['%', '2', '0'] from rfl, List.cons_append,
        List.cons_append, List.cons_append, List.nil_append,
        percentEscaped_cons, percentEscaped_cons, percentEscaped_cons]
      rw [show escHeadOk ('%' :: '2' :: '0' :: cs.flatMap encChar) = true from rfl,
        escHeadOk_cons_ne _ (by decide), escHeadOk_cons_ne _ (by decide), ih]
      rfl
    by_cases h3 : c = '#'
    · subst h3
      rw [show encChar '#' = ['%', '2', '3'] from rfl, List.cons_append,
        List.cons_append, List.cons_append, List.nil_append,
        percentEscaped_cons, percentEscaped_cons, percentEscaped_cons]
      rw [show escHeadOk ('%' :: '2' :: '3' :: cs.flatMap encChar) = true from rfl,
        escHeadOk_cons_ne _ (by decide), escHeadOk_cons_ne _ (by decide), ih]
      rfl
    by_cases h4 : c = '?'
    · subst h4
      rw [show encChar '?' = ['%', '3', 'F'] from rfl, List.cons_append,
        List.cons_append, List.cons_append, List.nil_append,
        percentEscaped_cons, percentEscaped_cons, percentEscaped_cons]
      rw [show escHeadOk ('%' :: '3' :: 'F' :: cs.flatMap encChar) = true from rfl,
        escHeadOk_cons_ne _ (by decide), escHeadOk_cons_ne _ (by decide), ih]
      rfl
    · rw [show encChar c = [c] by simp [encChar, h1, h2, h3, h4]]
      rw [List.singleton_append, percentEscaped_cons, escHeadOk_cons_ne _ h1, ih]
      rfl

theorem no_bad_char_md (p : String) (c : Char)
    (hc : c ∈ (md_link_target p).data) : c ≠ ' ' ∧ c ≠ '#' ∧ c ≠ '?' := by
  rw [md_link_target_eq] at hc
  rw [List.mem_flatMap] at hc
  obtain ⟨a, _, hc⟩ := hc
  rcases mem_encChar hc with ⟨he, _, h2, h3, h4⟩ | h
  · subst he
    exact ⟨h2, h3, h4⟩
  · fin_cases h <;> exact ⟨by decide, by decide, by decide⟩

/-- C8: (a) sanitization removes every filesystem-forbidden character
(`< > : " / \ | ? *`): none of them occurs in any sanitized name;
(b) `md_link_target` output contains no literal space, `#` or `?`, and
every `%` in it opens one of the escape sequences `%25`, `%20`, `%23`,
`%3F` (no raw `%`); (c) `/` separators survive the encoding unencoded:
the encoder maps the two sides of every `/` independently and keeps the
`/` itself. -/
theorem claim8_roundtrip_path_safety :
    (∀ (t : String) (n : Nat) (c : Char), c ∈ forbiddenChars →
        ¬ c ∈ (sanitize_path_name t n).data)
      ∧ (∀ p : String, ¬ ' ' ∈ (md_link_target p).data
          ∧ ¬ '#' ∈ (md_link_target p).data
          ∧ ¬ '?' ∈ (md_link_target p).data
          ∧ percentEscaped (md_link_target p).data = true)
      ∧ (∀ p q : String,
          md_link_target (p ++ "/" ++ q)
            = md_link_target p ++ "/" ++ md_link_target q) := by
  refine ⟨?_, ?_, ?_⟩
  · intro t n c hc hmem
    rcases mem_sanitize hmem with h | h
    · fin_cases hc <;> simp_all
    · exact not_forbidden_of_mem_replace h hc
  · intro p
    refine ⟨fun h => ?_, fun h => ?_, fun h => ?_, ?_⟩
    · exact absurd rfl (no_bad_char_md p ' ' h).1
    · exact absurd rfl (no_bad_char_md p '#' h).2.1
    · exact absurd rfl (no_bad_char_md p '?' h).2.2
    · rw [md_link_target_eq]
      exact percentEscaped_flatMap _
  · intro p q
    apply String.ext
    rw [md_link_target_eq, String.data_append, String.data_append,
      md_link_target_eq, md_link_target_eq]
    show ((p ++ "/" ++ q).data.map slashFix).flatMap encChar
      = ((p.data.map slashFix).flatMap encChar) ++ "/".data
        ++ ((q.data.map slashFix).flatMap encChar)
    rw [String.data_append, String.data_append, List.map_append,
      List.map_append, List.flatMap_append, List.flatMap_append]
    rfl

/-- Witness for C8 at a concrete forbidden character and inputs. -/
theorem claim8_witness :
    '<' ∈ forbiddenChars ∧ ¬ '<' ∈ (sanitize_path_name "a<b" 200).data :=
  ⟨by decide, claim8_roundtrip_path_safety.1 "a<b" 200 '<' (by decide)⟩

theorem sanitize_path_name_eq (s : String) (n : Nat) :
    sanitize_path_name s n =
      (if s = "" then "untitled"
       else if (if n < (stripDotSpace (replaceForbidden s.data)).length
                then rstripDotSpace ((stripDotSpace (replaceForbidden s.data)).take n)
                else stripDotSpace (replaceForbidden s.data)) = []
            then "untitled"
            else String.mk (if n < (stripDotSpace (replaceForbidden s.data)).length
                then rstripDotSpace ((stripDotSpace (replaceForbidden s.data)).take n)
                else stripDotSpace (replaceForbidden s.data))) := rfl

theorem trunc_ne_nil {m : List Char} (n : Nat) (hn : 1 ≤ n)
    (hne : stripDotSpace m ≠ []) :
    (if n < (stripDotSpace m).length
     then rstripDotSpace ((stripDotSpace m).take n)
     else stripDotSpace m) ≠ [] := by
  obtain ⟨c, rest, hcr⟩ : ∃ c rest, stripDotSpace m = c :: rest := by
    cases h : stripDotSpace m with
    | nil => exact absurd h hne
    | cons c rest => exact ⟨c, rest, rfl⟩
  have hc : isDotSpace c = false := by
    have hpre : stripDotSpace m <+: m.dropWhile isDotSpace := by
      rw [stripDotSpace]
      exact rstripDotSpace_isPre _
    obtain ⟨tl, htl⟩ := hpre
    rw [hcr, List.cons_append] at htl
    exact dropWhile_head_false htl.symm
  by_cases hl : n < (stripDotSpace m).length
  · rw [if_pos hl]
    intro hnil
    rw [rstripDotSpace_eq_nil_iff] at hnil
    have hcmem : c ∈ (stripDotSpace m).take n := by
      rw [hcr]
      cases n with
      | zero => omega
      | succ k =>
        rw [List.take_succ_cons]
        exact List.mem_cons_self c _
    rw [hnil c hcmem] at hc
    exact Bool.noConfusion hc
  · rw [if_neg hl]
    exact hne

/-- C7 counterexample: the claim describes sanitization as stripping
leading/trailing dots and *whitespace*, but the code strips only dots and
spaces (`.strip('. ')`): on the input `"a\t"` the described pipeline yields
`"a"` while `sanitize_path_name` keeps the trailing tab. -/
theorem claim7_counterexample :
    sanitize_path_name "a\t" 200 = "a\t"
      ∧ sanitizeSpecWorded "a\t" 200 = "a"
      ∧ sanitize_path_name "a\t" 200 ≠ sanitizeSpecWorded "a\t" 200 :=
  ⟨rfl, rfl, by decide⟩

/-- C7 (amended): for every input string and every `maxLength ≥ 1`,
`sanitize_path_name` replaces each forbidden character with `_`, strips
leading/trailing dots and *space characters* (not other whitespace),
truncates to `maxLength` re-stripping trailing dots/spaces, and is pure and
total; it returns the literal `"untitled"` exactly when the input is empty,
or strips to empty, or the sanitized text itself is literally `"untitled"`. -/
theorem claim7_sanitize_amended (s : String) (n : Nat) (hn : 1 ≤ n) :
    sanitize_path_name s n = sanitizeAmendedSpec s n
      ∧ (sanitize_path_name s n = "untitled" ↔
          (s = "" ∨ stripDotSpace (replaceForbidden s.data) = []
            ∨ (if n < (stripDotSpace (replaceForbidden s.data)).length
               then rstripDotSpace ((stripDotSpace (replaceForbidden s.data)).take n)
               else stripDotSpace (replaceForbidden s.data)) = "untitled".data)) := by
  constructor
  · rw [sanitize_path_name_eq, sanitizeAmendedSpec]
    by_cases hs : s = ""
    · subst hs
      rw [if_pos rfl]
      rw [show stripDotSpace (List.map
        (fun c => if forbiddenChars.contains c = true then '_' else c)
        ("" : String).data) = [] from rfl]
      simp
    · rw [if_neg hs]
      have hrepl : (s.data.map fun c => if forbiddenChars.contains c then '_' else c)
          = replaceForbidden s.data := rfl
      rw [hrepl]
      by_cases hl : n < (stripDotSpace (replaceForbidden s.data)).length
      · rw [if_pos hl, if_neg (by omega :
          ¬ (stripDotSpace (replaceForbidden s.data)).length ≤ n)]
        by_cases hz : rstripDotSpace ((stripDotSpace (replaceForbidden s.data)).take n) = []
        · rw [if_pos hz, if_pos (List.isEmpty_iff.mpr hz)]
        · rw [if_neg hz, if_neg (by simpa [List.isEmpty_iff] using hz)]
      · rw [if_neg hl, if_pos (by omega :
          (stripDotSpace (replaceForbidden s.data)).length ≤ n)]
        by_cases hz : stripDotSpace (replaceForbidden s.data) = []
        · rw [if_pos hz, if_pos (List.isEmpty_iff.mpr hz)]
        · rw [if_neg hz, if_neg (by simpa [List.isEmpty_iff] using hz)]
  · rw [sanitize_path_name_eq]
    constructor
    · intro h
      by_cases hs : s = ""
      · exact .inl hs
      by_cases ht : stripDotSpace (replaceForbidden s.data) = []
      · exact .inr (.inl ht)
      refine .inr (.inr ?_)
      rw [if_neg hs, if_neg (trunc_ne_nil n hn ht)] at h
      exact congrArg String.data h
    · intro h
      rcases h with h | h | h
      · rw [if_pos h]
      · have hlen : ¬ n < (stripDotSpace (replaceForbidden s.data)).length := by
          rw [h]
          simp
        by_cases hs : s = ""
        · rw [if_pos hs]
        · rw [if_neg hs, if_pos (by rw [if_neg hlen]; exact h)]
      · by_cases hs : s = ""
        · rw [if_pos hs]
        · rw [if_neg hs]
          by_cases hz : (if n < (stripDotSpace (replaceForbidden s.data)).length
              then rstripDotSpace ((stripDotSpace (replaceForbidden s.data)).take n)
              else stripDotSpace (replaceForbidden s.data)) = []
          · rw [if_pos hz]
          · rw [if_neg hz, h]

/-- Witness for C7 (amended) at a concrete input. -/
theorem claim7_witness :
    (1 ≤ 200)
      ∧ sanitize_path_name "My: Notes?" 200 = sanitizeAmendedSpec "My: Notes?" 200
      ∧ (sanitize_path_name "..." 200 = "untitled") :=
  ⟨by decide, (claim7_sanitize_amended "My: Notes?" 200 (by decide)).1,
    (claim7_sanitize_amended "..." 200 (by decide)).2.mpr (.inr (.inl (by decide)))⟩

/-- Witness for C10: on a forest holding an orphan page (assigned a path)
with a pathless child, over an empty filesystem, the orphan's record is
covered by an assigned target; the pathless child yields no record at all
(the full report has exactly three records: notebook, section, orphan). -/
theorem claim10_witness :
    (∃ p, exOrphanRec.target = pathStr p ∧ (fun (_ : FsPath) => false) p = false ∧
        pathStr p ∈ assignedTargets exNbs)
      ∧ (validate_index_links (fun _ => false) ["root"] exNbs).length = 3
      ∧ ((validate_index_links (fun _ => false) ["root"] exNbs).map
          MissingLink.pageId) = [none, none, some "o"] :=
  ⟨claim10_validate_covers_only_assigned (fun _ => false) ["root"] exNbs
      exOrphanRec (by decide), by decide, by decide⟩

/-! ## Layout coverage (claim C3) -/

theorem noneAssigned_unplanned_aux (n : Nat) :
    (∀ t : PageT, sizeOf t ≤ n → noneAssignedB (unplannedPage t) = true)
      ∧ (∀ ts : List PageT, sizeOf ts ≤ n →
          noneAssignedList (unplannedPages ts) = true) := by
  induction n with
  | zero =>
    constructor
    · intro t ht
      cases t with
      | mk d kids => rw [PageT.mk.sizeOf_spec] at ht; omega
    · intro ts hts
      cases ts with
      | nil => rfl
      | cons t ts' => rw [List.cons.sizeOf_spec] at hts; omega
  | succ n ih =>
    constructor
    · intro t ht
      cases t with
      | mk d kids =>
        rw [unplannedPage, noneAssignedB]
        rw [PageT.mk.sizeOf_spec] at ht
        have hd : (1 : Nat) ≤ sizeOf d := by
          cases d
          rw [PageData.mk.sizeOf_spec]
          omega
        rw [ih.2 kids (by omega)]
        rfl
    · intro ts hts
      cases ts with
      | nil => rfl
      | cons t ts' =>
        rw [List.cons.sizeOf_spec] at hts
        rw [unplannedPages, noneAssignedList,
          ih.1 t (by omega), ih.2 ts' (by omega)]
        rfl

theorem noneAssigned_unplanned (t : PageT) :
    noneAssignedB (unplannedPage t) = true :=
  (noneAssigned_unplanned_aux (sizeOf t)).1 t (Nat.le_refl _)

theorem allAssigned_of_shape_aux (n : Nat) :
    (∀ p : PlannedPage, sizeOf p ≤ n → ∀ pd : FsPath,
        planShapeOkB pd p = true → allAssignedB p = true)
      ∧ (∀ ps : List PlannedPage, sizeOf ps ≤ n → ∀ pd : FsPath,
        planShapeOkList pd ps = true → allAssignedList ps = true) := by
  induction n with
  | zero =>
    constructor
    · intro p hp
      cases p with
      | mk d dep pfx rp rel kids => rw [PlannedPage.mk.sizeOf_spec] at hp; omega
    · intro ps hps
      cases ps with
      | nil => intro _ _; rfl
      | cons p ps' => rw [List.cons.sizeOf_spec] at hps; omega
  | succ n ih =>
    constructor
    · intro p hp pd hshape
      cases p with
      | mk d dep pfx rp rel kids =>
        rw [PlannedPage.mk.sizeOf_spec] at hp
        rw [planShapeOkB] at hshape
        rw [allAssignedB]
        by_cases hk : kids.isEmpty
        · rw [if_pos hk] at hshape
          have : rp = some (pd ++ [slugify d.title ++ ".html"]) := by
            simpa using hshape
          subst this
          cases kids with
          | nil => rfl
          | cons a b => simp [List.isEmpty] at hk
        · rw [if_neg hk, Bool.and_eq_true] at hshape
          have hrp : rp = some (pd ++ [slugify d.title, slugify d.title ++ ".html"]) := by
            simpa using hshape.1
          subst hrp
          rw [ih.2 kids (by omega) _ hshape.2]
          rfl
    · intro ps hps pd hshape
      cases ps with
      | nil => rfl
      | cons p ps' =>
        rw [List.cons.sizeOf_spec] at hps
        rw [planShapeOkList, Bool.and_eq_true] at hshape
        rw [allAssignedList, ih.1 p (by omega) pd hshape.1,
          ih.2 ps' (by omega) pd hshape.2]
        rfl

theorem dictInsertStr_fresh (m : List (String × String)) (k v : String)
    (h : k ∉ m.map Prod.fst) : dictInsertStr m k v = m ++ [(k, v)] := by
  rw [dictInsertStr, if_neg]
  intro hc
  rw [List.any_eq_true] at hc
  obtain ⟨e, he, heq⟩ := hc
  exact h (List.mem_map.mpr ⟨e, he, by simpa using heq⟩)

theorem planPageRec_keys_aux (n : Nat) :
    (∀ t : PageT, sizeOf t ≤ n → ∀ (root pp : FsPath) (pfx : String)
        (dep : Nat) (st : PlannerState),
        (∀ k ∈ postIds t, k ∉ st.idToPath.map Prod.fst) → (postIds t).Nodup →
        (planPageRec root t pp pfx dep st).2.idToPath.map Prod.fst
          = st.idToPath.map Prod.fst ++ postIds t)
      ∧ (∀ ts : List PageT, sizeOf ts ≤ n → ∀ (root folder : FsPath)
          (total dep idx : Nat) (st : PlannerState),
          (∀ k ∈ postIdsList ts, k ∉ st.idToPath.map Prod.fst) →
          (postIdsList ts).Nodup →
          (planKids root folder total dep idx ts st).2.idToPath.map Prod.fst
            = st.idToPath.map Prod.fst ++ postIdsList ts) := by
  induction n with
  | zero =>
    constructor
    · intro t ht
      cases t with
      | mk d kids => rw [PageT.mk.sizeOf_spec] at ht; omega
    · intro ts hts root folder total dep idx st hfresh hnd
      cases ts with
      | nil => rw [planKids]; simp [postIdsList]
      | cons t ts' => rw [List.cons.sizeOf_spec] at hts; omega
  | succ n ih =>
    constructor
    · intro t ht root pp pfx dep st hfresh hnd
      cases t with
      | mk d kids =>
        rw [PageT.mk.sizeOf_spec] at ht
        rw [postIds] at hfresh hnd ⊢
        rw [planPageRec]
        by_cases hk : kids.isEmpty
        · rw [if_pos hk]
          have hkids : kids = [] := by
            cases kids with
            | nil => rfl
            | cons a b => simp [List.isEmpty] at hk
          subst hkids
          rw [postIdsList] at hfresh ⊢
          dsimp only
          rw [dictInsertStr_fresh _ _ _ (hfresh d.id (by simp)), List.map_append]
          rfl
        · rw [if_neg (by simpa using hk)]
          dsimp only
          have hsub : ∀ k ∈ postIdsList kids, k ∈ postIdsList kids ++ [d.id] := by
            intro k hkm
            exact List.mem_append_left _ hkm
          have hkeys := ih.2 kids (by omega) root (pp ++ [slugify d.title])
            kids.length dep 1
            { st with operations := st.operations ++
                [("mkdir", pp ++ [slugify d.title])] }
            (fun k hkm => hfresh k (hsub k hkm)) (List.Nodup.of_append_left hnd)
          have hdid : d.id ∉ (planKids root (pp ++ [slugify d.title]) kids.length
              dep 1 kids
              { st with operations := st.operations ++
                  [("mkdir", pp ++ [slugify d.title])] }).2.idToPath.map Prod.fst := by
            rw [hkeys, List.mem_append]
            rintro (h | h)
            · exact hfresh d.id (by simp) h
            · exact (List.disjoint_of_nodup_append hnd) h (by simp)
          rw [dictInsertStr_fresh _ _ _ hdid, List.map_append, hkeys,
            List.append_assoc]
          rfl
    · intro ts hts root folder total dep idx st hfresh hnd
      cases ts with
      | nil => rw [planKids]; simp [postIdsList]
      | cons t ts' =>
        rw [List.cons.sizeOf_spec] at hts
        rw [postIdsList] at hfresh hnd ⊢
        rw [planKids]
        dsimp only
        have h1 := ih.1 t (by omega) root folder (format_order_pfx idx total)
          (dep + 1) st
          (fun k hkm => hfresh k (List.mem_append_left _ hkm))
          (List.Nodup.of_append_left hnd)
        have hdisj := List.disjoint_of_nodup_append hnd
        have h2 := ih.2 ts' (by omega) root folder total dep (idx + 1)
          (planPageRec root t folder (format_order_pfx idx total) (dep + 1) st).2
          (by
            intro k hkm
            rw [h1, List.mem_append]
            rintro (h | h)
            · exact hfresh k (List.mem_append_right _ hkm) h
            · exact hdisj h hkm)
          (List.Nodup.of_append_right hnd)
        rw [h2, h1, List.append_assoc]

theorem planRoots_shape (root secPath : FsPath) :
    ∀ (ts : List PageT) (total idx : Nat) (st : PlannerState),
      planShapeOkList secPath (planRoots root secPath total idx ts st).1 = true := by
  intro ts
  induction ts with
  | nil => intro total idx st; rfl
  | cons t ts' ih =>
    intro total idx st
    rw [planRoots]
    dsimp only
    rw [planShapeOkList, Bool.and_eq_true]
    exact ⟨claim5_folder_file_consistency t root secPath _ 0 st, ih total (idx + 1) _⟩

theorem planRoots_keys (root secPath : FsPath) :
    ∀ (ts : List PageT) (total idx : Nat) (st : PlannerState),
      (∀ k ∈ postIdsList ts, k ∉ st.idToPath.map Prod.fst) →
      (postIdsList ts).Nodup →
      (planRoots root secPath total idx ts st).2.idToPath.map Prod.fst
        = st.idToPath.map Prod.fst ++ postIdsList ts := by
  intro ts
  induction ts with
  | nil => intro total idx st _ _; rw [planRoots]; simp [postIdsList]
  | cons t ts' ih =>
    intro total idx st hfresh hnd
    rw [postIdsList] at hfresh hnd ⊢
    rw [planRoots]
    dsimp only
    have h1 := (planPageRec_keys_aux (sizeOf t)).1 t (Nat.le_refl _) root secPath
      (format_order_pfx idx total) 0 st
      (fun k hkm => hfresh k (List.mem_append_left _ hkm))
      (List.Nodup.of_append_left hnd)
    have hdisj := List.disjoint_of_nodup_append hnd
    have h2 := ih total (idx + 1)
      (planPageRec root t secPath (format_order_pfx idx total) 0 st).2
      (by
        intro k hkm
        rw [h1, List.mem_append]
        rintro (h | h)
        · exact hfresh k (List.mem_append_right _ hkm) h
        · exact hdisj h hkm)
      (List.Nodup.of_append_right hnd)
    rw [h2, h1, List.append_assoc]

theorem planOrphans_keys (root secPath : FsPath) :
    ∀ (ts : List PageT) (total idx : Nat) (st : PlannerState),
      (∀ k ∈ ts.map (fun t => t.data.id), k ∉ st.idToPath.map Prod.fst) →
      (ts.map (fun t => t.data.id)).Nodup →
      (planOrphans root secPath total idx ts st).2.idToPath.map Prod.fst
        = st.idToPath.map Prod.fst ++ ts.map (fun t => t.data.id) := by
  intro ts
  induction ts with
  | nil => intro total idx st _ _; rw [planOrphans]; simp
  | cons t ts' ih =>
    intro total idx st hfresh hnd
    cases t with
    | mk d kids =>
      rw [List.map_cons] at hfresh hnd ⊢
      rw [planOrphans]
      simp only [planOrphan]
      have hfreshd : d.id ∉ st.idToPath.map Prod.fst :=
        hfresh _ (by simp [PageT.data])
      have h2 := ih total (idx + 1)
        ⟨dictInsertStr st.idToPath d.id
          (path_to_markdown_link (secPath ++ [slugify d.title ++ ".html"]) root false),
          st.operations⟩
        (by
          intro k hkm
          dsimp only
          rw [dictInsertStr_fresh _ _ _ hfreshd, List.map_append, List.mem_append]
          rintro (h | h)
          · exact hfresh k (List.mem_cons_of_mem _ hkm) h
          · rw [List.nodup_cons] at hnd
            simp only [List.map_cons, List.mem_singleton, List.map_nil] at h
            subst h
            exact hnd.1 hkm)
        (List.Nodup.of_cons hnd)
      rw [h2]
      dsimp only
      rw [dictInsertStr_fresh _ _ _ hfreshd, List.map_append]
      simp [PageT.data, List.append_assoc]

/-- C3 counterexample: on a section whose pages are an orphan (`level 1`)
with one child (`level 2`), `IndexBuilder.build` leaves the orphan's child
without a `resolvedPath` and without an id→path entry: the map holds only
the orphan's id, not one entry per page node. -/
theorem claim3_counterexample :
    exBuildOC.id_to_path_map.map Prod.fst = ["o"]
      ∧ exBuildOC.notebooks.map (fun nb => nb.sections.map (fun s =>
          s.orphanPages.map (fun p => (p.data.id, p.resolvedPath.isSome,
            p.children.map (fun c => (c.data.id, c.resolvedPath))))))
        = [[[("o", true, [("c", none)])]]] :=
  ⟨rfl, rfl⟩

/-- C3 (amended): after layout planning of a section, every page node
reachable through the section's root-page forest is assigned a
`resolvedPath`, and every orphan page itself is assigned one while the
descendants of orphan pages are not; provided the ids are pairwise
distinct, the id→path map then contains exactly one entry per assigned
node, keyed by its id (in planning order: root forest in post-order, then
orphans). -/
theorem claim3_paths_amended (root secPath : FsPath)
    (roots orphans : List PageT)
    (hnd : (postIdsList roots ++ orphans.map (fun t => t.data.id)).Nodup) :
    allAssignedList (plan_pages root secPath roots orphans ⟨[], []⟩).1 = true
      ∧ (plan_pages root secPath roots orphans ⟨[], []⟩).2.1.all
          (fun p => p.resolvedPath.isSome && noneAssignedList p.children) = true
      ∧ (plan_pages root secPath roots orphans ⟨[], []⟩).2.2.idToPath.map Prod.fst
          = postIdsList roots ++ orphans.map (fun t => t.data.id) := by
  refine ⟨?_, ?_, ?_⟩
  · rw [plan_pages]
    dsimp only
    exact (allAssigned_of_shape_aux
        (sizeOf (planRoots root secPath roots.length 1 roots ⟨[], []⟩).1)).2
      _ (Nat.le_refl _) secPath (planRoots_shape root secPath roots roots.length 1 _)
  · rw [plan_pages]
    dsimp only
    generalize (planRoots root secPath roots.length 1 roots (⟨[], []⟩ : PlannerState)).2 = st1
    rw [List.all_eq_true]
    have : ∀ (ts : List PageT) (total idx : Nat) (st : PlannerState),
        ∀ p ∈ (planOrphans root secPath total idx ts st).1,
          (p.resolvedPath.isSome && noneAssignedList p.children) = true := by
      intro ts
      induction ts with
      | nil => intro total idx st p hp; rw [planOrphans] at hp; simp at hp
      | cons t ts' ih =>
        intro total idx st p hp
        cases t with
        | mk d kids =>
          rw [planOrphans] at hp
          simp only [planOrphan, List.mem_cons] at hp
          rcases hp with hp | hp
          · subst hp
            simp only [PlannedPage.resolvedPath, PlannedPage.children,
              Option.isSome_some, Bool.true_and]
            have : ∀ (ks : List PageT),
                noneAssignedList (ks.map unplannedPage) = true := by
              intro ks
              induction ks with
              | nil => rfl
              | cons a b ihb =>
                rw [List.map_cons, noneAssignedList, noneAssigned_unplanned a, ihb]
                rfl
            exact this kids
          · exact ih total (idx + 1) _ p hp
    intro p hp
    exact this orphans orphans.length 1 st1 p hp
  · rw [plan_pages]
    dsimp only
    have h1 := planRoots_keys root secPath roots roots.length 1 ⟨[], []⟩
      (by intro k _; simp) (List.Nodup.of_append_left hnd)
    have hdisj := List.disjoint_of_nodup_append hnd
    have h2 := planOrphans_keys root secPath orphans orphans.length 1
      (planRoots root secPath roots.length 1 roots ⟨[], []⟩).2
      (by
        intro k hkm
        rw [h1]
        intro h
        simp only [List.map_nil, List.nil_append] at h
        exact hdisj h hkm)
      (List.Nodup.of_append_right hnd)
    rw [h2, h1]
    simp

/-- Witness for C3 (amended) at a concrete section: one root page with one
child, plus one orphan. -/
theorem claim3_witness :
    ((postIdsList [PageT.mk (exPd "r") [PageT.mk (exPd "k") []]]
        ++ [PageT.mk (exPd "q") []].map (fun t => t.data.id)).Nodup)
      ∧ (plan_pages ["root"] ["root", "S"]
          [PageT.mk (exPd "r") [PageT.mk (exPd "k") []]]
          [PageT.mk (exPd "q") []] ⟨[], []⟩).2.2.idToPath.map Prod.fst
        = ["k", "r", "q"] := by
  constructor
  · decide
  · have := (claim3_paths_amended ["root"] ["root", "S"]
      [PageT.mk (exPd "r") [PageT.mk (exPd "k") []]]
      [PageT.mk (exPd "q") []] (by decide)).2.2
    rw [this]
    rfl

/-! ## Tree-builder infrastructure (claims C1, C2, C9) -/

theorem insertByOrder_perm (x : RawPage) :
    ∀ l : List RawPage, (insertByOrder x l).Perm (x :: l) := by
  intro l
  induction l with
  | nil => exact List.Perm.refl _
  | cons y ys ih =>
    rw [insertByOrder]
    by_cases h : x.order ≤ y.order
    · rw [if_pos h]
    · rw [if_neg h]
      exact (List.Perm.cons y ih).trans (List.Perm.swap x y ys)

theorem sortByOrder_perm : ∀ l : List RawPage, (sortByOrder l).Perm l := by
  intro l
  induction l with
  | nil => exact List.Perm.refl _
  | cons x xs ih =>
    rw [sortByOrder]
    exact (insertByOrder_perm x (sortByOrder xs)).trans (List.Perm.cons x ih)

theorem dictInsert_fresh (m : List RawPage) (p : RawPage)
    (h : p.id ∉ m.map RawPage.id) : dictInsert m p = m ++ [p] := by
  rw [dictInsert, if_neg]
  intro hc
  rw [List.any_eq_true] at hc
  obtain ⟨q, hq, hqe⟩ := hc
  exact h (List.mem_map.mpr ⟨q, hq, by simpa using hqe⟩)

theorem dictInsert_nodup (m : List RawPage) (p : RawPage)
    (h : (m.map RawPage.id).Nodup) :
    ((dictInsert m p).map RawPage.id).Nodup := by
  rw [dictInsert]
  by_cases hc : m.any (fun q => q.id == p.id) = true
  · rw [if_pos hc]
    have : (m.map (fun q => if q.id == p.id then p else q)).map RawPage.id
        = m.map RawPage.id := by
      rw [List.map_map]
      apply List.map_congr_left
      intro q _
      by_cases hq : q.id = p.id
      · simp [Function.comp, hq]
      · simp [Function.comp, hq]
    rw [this]
    exact h
  · rw [if_neg hc]
    rw [List.map_append, List.nodup_append]
    refine ⟨h, List.nodup_singleton _, ?_⟩
    intro a ha hb
    rw [List.map_singleton, List.mem_singleton] at hb
    subst hb
    apply hc
    rw [List.any_eq_true]
    rw [List.mem_map] at ha
    obtain ⟨q, hq, hqe⟩ := ha
    exact ⟨q, hq, by simp [hqe]⟩

theorem createNodes_nodup (pages : List RawPage) :
    ((createNodes pages).map RawPage.id).Nodup := by
  rw [createNodes]
  have : ∀ (ps : List RawPage) (acc : List RawPage),
      (acc.map RawPage.id).Nodup → ((ps.foldl dictInsert acc).map RawPage.id).Nodup := by
    intro ps
    induction ps with
    | nil => intro acc h; exact h
    | cons p ps' ih =>
      intro acc h
      rw [List.foldl_cons]
      exact ih _ (dictInsert_nodup acc p h)
  exact this pages [] (by simp)

theorem createNodes_eq_self (pages : List RawPage)
    (h : (pages.map RawPage.id).Nodup) : createNodes pages = pages := by
  rw [createNodes]
  have : ∀ (ps acc : List RawPage),
      ((acc ++ ps).map RawPage.id).Nodup → ps.foldl dictInsert acc = acc ++ ps := by
    intro ps
    induction ps with
    | nil => intro acc _; simp
    | cons p ps' ih =>
      intro acc hnd
      rw [List.foldl_cons]
      have hfresh : p.id ∉ acc.map RawPage.id := by
        intro hmem
        rw [List.map_append, List.nodup_append] at hnd
        exact hnd.2.2 hmem (by simp)
      rw [dictInsert_fresh acc p hfresh]
      rw [ih (acc ++ [p]) (by simpa using hnd)]
      simp
  simpa using this pages [] (by simpa using h)

theorem mem_take_indexOf_lt {L : List String} (hnd : L.Nodup) {c : String}
    {k : Nat} (h : c ∈ L.take k) : L.indexOf c < k := by
  obtain ⟨j, hj, hje⟩ := List.mem_iff_getElem.mp h
  have hjk : j < k := by
    have := hj
    rw [List.length_take] at this
    omega
  have hjl : j < L.length := by
    have := hj
    rw [List.length_take] at this
    omega
  simp only [List.getElem_take] at hje
  rw [← hje, List.indexOf_getElem hnd j hjl]
  exact hjk

theorem indexOf_lt_of_mem_of_take {L : List String} (hnd : L.Nodup)
    {c : String} {k : Nat} (hk : k ≤ L.length) (h : L.indexOf c < k) :
    c ∈ L.take k := by
  have hmem : c ∈ L := by
    rw [← List.indexOf_lt_length]
    omega
  have hidx : L.indexOf c < L.length := List.indexOf_lt_length.mpr hmem
  have : L[L.indexOf c] = c := List.getElem_indexOf hidx
  rw [← this]
  rw [List.mem_take_iff_getElem]
  exact ⟨L.indexOf c, lt_min_iff.mpr ⟨h, hidx⟩, rfl⟩

theorem TBInv.init (s : List RawPage) : TBInv s 0 TBState.init := by
  constructor
  · intro e he; simp [TBState.init] at he
  · intro c p hcp; simp [TBState.init] at hcp
  · intro c p hcp; simp [TBState.init] at hcp
  · intro i c; simp [TBState.init]
  · intro i; simp [TBState.init]
  · intro c hc; simp [TBState.init] at hc
  · intro c _; rfl
  · intro c _; rfl
  · intro c _; rfl
  · intro c p hcp; simp [TBState.init] at hcp
  · intro m hm _; simp at hm

theorem tbStep_inv {s : List RawPage} (hnd : (s.map RawPage.id).Nodup)
    {k : Nat} (hk : k < s.length) {st : TBState} (h : TBInv s k st) :
    TBInv s (k + 1) (tbStep st ((s.get ⟨k, hk⟩))) := by
  have hLlen : (s.map RawPage.id).length = s.length := List.length_map _ _
  have hkL : k < (s.map RawPage.id).length := by omega
  have hgetL : ((s.map RawPage.id).get ⟨k, hkL⟩) = ((s.get ⟨k, hk⟩)).id := List.getElem_map _
  have hidxn : (s.map RawPage.id).indexOf ((s.get ⟨k, hk⟩)).id = k := by
    rw [← hgetL]
    exact List.indexOf_getElem hnd k hkL
  have hmem1 : ((s.get ⟨k, hk⟩)).id ∈ (s.map RawPage.id).take (k + 1) :=
    indexOf_lt_of_mem_of_take hnd (by omega) (by omega)
  have hnot : ((s.get ⟨k, hk⟩)).id ∉ (s.map RawPage.id).take k := by
    intro hmem
    have := mem_take_indexOf_lt hnd hmem
    omega
  have htake : ∀ x ∈ (s.map RawPage.id).take k, x ∈ (s.map RawPage.id).take (k + 1) := by
    intro x hx
    exact indexOf_lt_of_mem_of_take hnd (by omega)
      (by have := mem_take_indexOf_lt hnd hx; omega)
  have hneqn : ∀ x ∈ (s.map RawPage.id).take k, x ≠ ((s.get ⟨k, hk⟩)).id := by
    intro x hx he
    exact hnot (he ▸ hx)
  have hinj : ∀ m ∈ s, m.id = ((s.get ⟨k, hk⟩)).id → m = (s.get ⟨k, hk⟩) := by
    intro m hm he
    exact List.inj_on_of_nodup_map hnd hm (s.getElem_mem hk) he
  have htk : ∀ m ∈ s.take (k + 1), m ∈ s.take k ∨ m = (s.get ⟨k, hk⟩) := by
    intro m hm
    rw [List.take_succ, List.getElem?_eq_getElem hk, Option.toList_some,
      List.mem_append, List.mem_singleton] at hm
    exact hm
  have hmemtk : ∀ m ∈ s.take k, m.id ∈ (s.map RawPage.id).take k := by
    intro m hm
    rw [← List.map_take]
    exact List.mem_map.mpr ⟨m, hm, rfl⟩
  rw [tbStep]
  have hsub : ∀ e ∈ popStack st.stack ((s.get ⟨k, hk⟩)).level, e ∈ st.stack := by
    intro e he
    rw [popStack] at he
    exact (List.dropWhile_sublist _).mem he
  cases hpop : popStack st.stack ((s.get ⟨k, hk⟩)).level with
  | cons top rest =>
    obtain ⟨pid, plv⟩ := top
    have htop : pid ∈ (s.map RawPage.id).take k :=
      h.stack_mem (pid, plv) (hsub (pid, plv) (by rw [hpop]; exact List.mem_cons_self _ _))
    have htoplt : (s.map RawPage.id).indexOf pid < k := mem_take_indexOf_lt hnd htop
    dsimp only
    by_cases hlev : 0 < ((s.get ⟨k, hk⟩)).level
    · rw [if_pos hlev]
      have hassignedn : st.assigned ((s.get ⟨k, hk⟩)).id = none := h.untouched_assigned _ hnot
      constructor
      · intro e he
        rw [List.mem_cons] at he
        rcases he with he | he
        · subst he; exact hmem1
        · exact htake _ (h.stack_mem e (hsub e (by rw [hpop]; exact he)))
      · intro c p hcp
        dsimp only at hcp
        by_cases hc : (c == ((s.get ⟨k, hk⟩)).id) = true
        · rw [if_pos hc] at hcp
          injection hcp with hcp
          subst hcp
          exact ⟨htake _ htop, by rw [eq_of_beq hc]; exact hmem1⟩
        · rw [if_neg hc] at hcp
          obtain ⟨h1, h2⟩ := h.assigned_mem c p hcp
          exact ⟨htake _ h1, htake _ h2⟩
      · intro c p hcp
        dsimp only at hcp
        by_cases hc : (c == ((s.get ⟨k, hk⟩)).id) = true
        · rw [if_pos hc] at hcp
          injection hcp with hcp
          rw [eq_of_beq hc, hidxn, ← hcp]
          exact htoplt
        · rw [if_neg hc] at hcp
          exact h.assigned_lt c p hcp
      · intro i c
        dsimp only
        by_cases hi : (i == pid) = true
        · rw [if_pos hi, List.mem_append, List.mem_singleton]
          have hip : i = pid := eq_of_beq hi
          by_cases hc : (c == ((s.get ⟨k, hk⟩)).id) = true
          · rw [if_pos hc]
            have hcn : c = ((s.get ⟨k, hk⟩)).id := eq_of_beq hc
            constructor
            · intro _; rw [hip]
            · intro _; right; exact hcn
          · rw [if_neg hc]
            have hcn : c ≠ ((s.get ⟨k, hk⟩)).id := by simpa using hc
            constructor
            · rintro (hm | hm)
              · exact (h.children_iff i c).mp hm
              · exact absurd hm hcn
            · intro hm
              left
              exact (h.children_iff i c).mpr hm
        · rw [if_neg hi]
          by_cases hc : (c == ((s.get ⟨k, hk⟩)).id) = true
          · rw [if_pos hc]
            have hcn : c = ((s.get ⟨k, hk⟩)).id := eq_of_beq hc
            constructor
            · intro hm
              have := (h.children_iff i c).mp hm
              rw [hcn, hassignedn] at this
              exact absurd this (by simp)
            · intro hm
              injection hm with hm
              exact absurd hm.symm (by simpa using hi)
          · rw [if_neg hc]
            exact h.children_iff i c
      · intro i
        dsimp only
        by_cases hi : (i == pid) = true
        · rw [if_pos hi]
          rw [List.nodup_append]
          refine ⟨h.children_nodup i, List.nodup_singleton _, ?_⟩
          intro a ha hb
          rw [List.mem_singleton] at hb
          have := (h.children_iff i a).mp ha
          rw [hb, hassignedn] at this
          exact absurd this (by simp)
        · rw [if_neg hi]
          exact h.children_nodup i
      · intro c hc
        obtain ⟨h1, h2, h3⟩ := h.orphan_spec c hc
        refine ⟨htake _ h1, ?_, h3⟩
        dsimp only
        rw [if_neg (by simpa using hneqn c h1)]
        exact h2
      · exact h.reason_none
      · intro c hc
        dsimp only
        rw [if_neg (by
          simp only [beq_iff_eq]
          intro he
          exact hc (he ▸ hmem1))]
        exact h.untouched_assigned c (fun hm => hc (htake c hm))
      · intro c hc
        exact h.untouched_orphan c (fun hm => hc (htake c hm))
      · intro c p hcp m hm hme
        dsimp only at hcp
        by_cases hc : (c == ((s.get ⟨k, hk⟩)).id) = true
        · rw [eq_of_beq hc] at hme
          rw [hinj m hm hme]
          exact hlev
        · rw [if_neg hc] at hcp
          exact h.assigned_level c p hcp m hm hme
      · intro m hm hml
        rcases htk m hm with hm' | hm'
        · rcases h.handled m hm' hml with hh | hh
          · left
            dsimp only
            by_cases hc : (m.id == ((s.get ⟨k, hk⟩)).id) = true
            · simp [eq_of_beq hc]
            · rw [if_neg hc]; exact hh
          · right; exact hh
        · subst hm'
          left
          dsimp only
          simp
    · rw [if_neg hlev]
      constructor
      · intro e he
        rw [List.mem_cons] at he
        rcases he with he | he
        · subst he; exact hmem1
        · exact htake _ (h.stack_mem e (hsub e (by rw [hpop]; exact he)))
      · intro c p hcp
        obtain ⟨h1, h2⟩ := h.assigned_mem c p hcp
        exact ⟨htake _ h1, htake _ h2⟩
      · exact h.assigned_lt
      · exact h.children_iff
      · exact h.children_nodup
      · intro c hc
        obtain ⟨h1, h2, h3⟩ := h.orphan_spec c hc
        exact ⟨htake _ h1, h2, h3⟩
      · exact h.reason_none
      · intro c hc
        exact h.untouched_assigned c (fun hm => hc (htake c hm))
      · intro c hc
        exact h.untouched_orphan c (fun hm => hc (htake c hm))
      · exact h.assigned_level
      · intro m hm hml
        rcases htk m hm with hm' | hm'
        · exact h.handled m hm' hml
        · subst hm'
          exact absurd hml hlev
  | nil =>
    dsimp only
    by_cases hlev : 0 < ((s.get ⟨k, hk⟩)).level
    · rw [if_pos hlev]
      constructor
      · intro e he
        rw [List.mem_singleton] at he
        subst he
        exact hmem1
      · intro c p hcp
        obtain ⟨h1, h2⟩ := h.assigned_mem c p hcp
        exact ⟨htake _ h1, htake _ h2⟩
      · exact h.assigned_lt
      · exact h.children_iff
      · exact h.children_nodup
      · intro c hc
        dsimp only at hc
        by_cases hcn : (c == ((s.get ⟨k, hk⟩)).id) = true
        · have he := eq_of_beq hcn
          subst he
          refine ⟨hmem1, h.untouched_assigned _ hnot, ?_⟩
          dsimp only
          simp
        · rw [if_neg hcn] at hc
          obtain ⟨h1, h2, h3⟩ := h.orphan_spec c hc
          refine ⟨htake _ h1, h2, ?_⟩
          dsimp only
          rw [if_neg hcn]
          exact h3
      · intro c hc
        dsimp only at hc ⊢
        by_cases hcn : (c == ((s.get ⟨k, hk⟩)).id) = true
        · rw [if_pos hcn] at hc
          exact absurd hc (by simp)
        · rw [if_neg hcn] at hc
          rw [if_neg hcn]
          exact h.reason_none c hc
      · intro c hc
        exact h.untouched_assigned c (fun hm => hc (htake c hm))
      · intro c hc
        dsimp only
        rw [if_neg (by
          simp only [beq_iff_eq]
          intro he
          exact hc (he ▸ hmem1))]
        exact h.untouched_orphan c (fun hm => hc (htake c hm))
      · exact h.assigned_level
      · intro m hm hml
        rcases htk m hm with hm' | hm'
        · rcases h.handled m hm' hml with hh | hh
          · left; exact hh
          · right
            dsimp only
            by_cases hc : (m.id == ((s.get ⟨k, hk⟩)).id) = true
            · simp [eq_of_beq hc]
            · rw [if_neg hc]; exact hh
        · subst hm'
          right
          dsimp only
          simp
    · rw [if_neg hlev]
      constructor
      · intro e he
        rw [List.mem_singleton] at he
        subst he
        exact hmem1
      · intro c p hcp
        obtain ⟨h1, h2⟩ := h.assigned_mem c p hcp
        exact ⟨htake _ h1, htake _ h2⟩
      · exact h.assigned_lt
      · exact h.children_iff
      · exact h.children_nodup
      · intro c hc
        obtain ⟨h1, h2, h3⟩ := h.orphan_spec c hc
        exact ⟨htake _ h1, h2, h3⟩
      · exact h.reason_none
      · intro c hc
        exact h.untouched_assigned c (fun hm => hc (htake c hm))
      · intro c hc
        exact h.untouched_orphan c (fun hm => hc (htake c hm))
      · exact h.assigned_level
      · intro m hm hml
        rcases htk m hm with hm' | hm'
        · exact h.handled m hm' hml
        · subst hm'
          exact absurd hml hlev

theorem tbFold_inv (s : List RawPage) (hnd : (s.map RawPage.id).Nodup) :
    ∀ k, k ≤ s.length → TBInv s k ((s.take k).foldl tbStep TBState.init) := by
  intro k
  induction k with
  | zero => intro _; exact TBInv.init s
  | succ k ih =>
    intro hk1
    have hk : k < s.length := by omega
    have hsplit : s.take (k + 1) = s.take k ++ [(s.get ⟨k, hk⟩)] := by
      rw [List.take_succ, List.getElem?_eq_getElem hk]
      rfl
    rw [hsplit, List.foldl_concat]
    exact tbStep_inv hnd hk (ih (by omega))

theorem buildRelationships_inv (nodes : List RawPage)
    (hnd : (nodes.map RawPage.id).Nodup) :
    TBInv (sortByOrder nodes) (sortByOrder nodes).length
      (buildRelationships nodes) := by
  have hperm : ((sortByOrder nodes).map RawPage.id).Perm (nodes.map RawPage.id) :=
    (sortByOrder_perm nodes).map _
  have hnd' : ((sortByOrder nodes).map RawPage.id).Nodup := hperm.nodup_iff.mpr hnd
  have := tbFold_inv (sortByOrder nodes) hnd' (sortByOrder nodes).length
    (Nat.le_refl _)
  rw [List.take_length] at this
  exact this

theorem take_len_map (s : List RawPage) :
    (s.map RawPage.id).take s.length = s.map RawPage.id := by
  rw [← List.length_map s RawPage.id, List.take_length]

theorem dfsVisit_noop (childrenOf : String → List String) (isNode : String → Bool)
    (L : List String)
    (hedge : ∀ i c, c ∈ childrenOf i → c ∈ L ∧ L.indexOf i < L.indexOf c) :
    ∀ (fuel : Nat) (i : String) (st : DfsState), i ∈ L →
      (∀ j ∈ st.instack, L.indexOf j < L.indexOf i) →
      L.length - L.indexOf i < fuel →
      (dfsVisit childrenOf isNode fuel i st).1 = false
        ∧ (dfsVisit childrenOf isNode fuel i st).2.instack = st.instack
        ∧ (dfsVisit childrenOf isNode fuel i st).2.cycMarked = st.cycMarked := by
  intro fuel
  induction fuel with
  | zero =>
    intro i st hi _ hf
    have : L.indexOf i < L.length := List.indexOf_lt_length.mpr hi
    omega
  | succ fuel ih =>
    intro i st hi hstk hf
    rw [dfsVisit]
    have hnotin : st.instack.contains i = false := by
      cases hcl : st.instack.contains i
      · rfl
      · have : i ∈ st.instack := List.elem_iff.mp hcl
        have := hstk i this
        omega
    rw [hnotin]
    simp only [Bool.false_eq_true, if_false]
    by_cases hv : st.visited.contains i = true
    · rw [if_pos hv]
      exact ⟨rfl, rfl, rfl⟩
    · rw [if_neg hv]
      have hkids : ∀ c ∈ (if isNode i then childrenOf i else []),
          c ∈ L ∧ L.indexOf i < L.indexOf c := by
        intro c hc
        by_cases hn : isNode i = true
        · rw [if_pos hn] at hc
          exact hedge i c hc
        · rw [if_neg hn] at hc
          simp at hc
      have hloop : ∀ (cs : List String),
          (∀ c ∈ cs, c ∈ L ∧ L.indexOf i < L.indexOf c) →
          ∀ st' : DfsState, st'.instack = i :: st.instack →
            st'.cycMarked = st.cycMarked →
          (dfsKidsGen (dfsVisit childrenOf isNode fuel) cs st').1 = false
            ∧ (dfsKidsGen (dfsVisit childrenOf isNode fuel) cs st').2.instack
              = i :: st.instack
            ∧ (dfsKidsGen (dfsVisit childrenOf isNode fuel) cs st').2.cycMarked
              = st.cycMarked := by
        intro cs
        induction cs with
        | nil =>
          intro _ st' h1 h2
          exact ⟨rfl, h1, h2⟩
        | cons c cs' ihc =>
          intro hcs st' h1 h2
          rw [dfsKidsGen]
          have hc := hcs c (List.mem_cons_self _ _)
          have hcl : L.indexOf c < L.length := List.indexOf_lt_length.mpr hc.1
          have hvisit := ih c st' hc.1
            (by
              intro j hj
              rw [h1] at hj
              rcases List.mem_cons.mp hj with hj | hj
              · subst hj; exact hc.2
              · exact lt_trans (hstk j hj) hc.2)
            (by omega)
          cases hres : dfsVisit childrenOf isNode fuel c st' with
          | mk b st2 =>
            rw [hres] at hvisit
            obtain ⟨hb, hstk2, hcyc2⟩ := hvisit
            dsimp only at hb hstk2 hcyc2
            subst hb
            exact ihc (fun x hx => hcs x (List.mem_cons_of_mem _ hx)) st2
              (hstk2.trans h1) (hcyc2.trans h2)
      have := hloop (if isNode i then childrenOf i else []) hkids
        { st with visited := i :: st.visited, instack := i :: st.instack }
        rfl rfl
      cases hres : dfsKidsGen (dfsVisit childrenOf isNode fuel)
          (if isNode i then childrenOf i else [])
          { st with visited := i :: st.visited, instack := i :: st.instack } with
      | mk b st2 =>
        rw [hres] at this
        obtain ⟨hb, hstk2, hcyc2⟩ := this
        dsimp only at hb hstk2 hcyc2
        subst hb
        dsimp only
        refine ⟨rfl, ?_, hcyc2⟩
        dsimp only
        rw [hstk2]
        exact List.erase_cons_head i st.instack

theorem runDfs_noop (childrenOf : String → List String) (isNode : String → Bool)
    (L : List String)
    (hedge : ∀ i c, c ∈ childrenOf i → c ∈ L ∧ L.indexOf i < L.indexOf c)
    (ids : List String) (hids : ∀ i ∈ ids, i ∈ L) (fuel : Nat)
    (hfuel : L.length < fuel) :
    (runDfs childrenOf isNode fuel ids).instack = []
      ∧ (runDfs childrenOf isNode fuel ids).cycMarked = [] := by
  rw [runDfs]
  have main : ∀ (is : List String) (st : DfsState), (∀ i ∈ is, i ∈ L) →
      st.instack = [] → st.cycMarked = [] →
      (is.foldl (fun st i =>
          if st.visited.contains i then st
          else (dfsVisit childrenOf isNode fuel i st).2) st).instack = []
        ∧ (is.foldl (fun st i =>
          if st.visited.contains i then st
          else (dfsVisit childrenOf isNode fuel i st).2) st).cycMarked = [] := by
    intro is
    induction is with
    | nil => intro st _ h1 h2; exact ⟨h1, h2⟩
    | cons i is' ihs =>
      intro st his h1 h2
      rw [List.foldl_cons]
      by_cases hv : st.visited.contains i = true
      · rw [if_pos hv]
        exact ihs st (fun x hx => his x (List.mem_cons_of_mem _ hx)) h1 h2
      · rw [if_neg hv]
        have hiL := his i (List.mem_cons_self _ _)
        have hvi := dfsVisit_noop childrenOf isNode L hedge fuel i st hiL
          (by rw [h1]; intro j hj; simp at hj) (by omega)
        exact ihs _ (fun x hx => his x (List.mem_cons_of_mem _ hx))
          (hvi.2.1.trans h1) (hvi.2.2.trans h2)
  exact main ids ⟨[], [], []⟩ hids rfl rfl

theorem treeOut_inv (pages : List RawPage) :
    TBInv (sortByOrder (createNodes pages)) (sortByOrder (createNodes pages)).length
      ((treeOut pages).relSt) :=
  buildRelationships_inv _ (createNodes_nodup pages)

theorem sorted_ids_nodup (pages : List RawPage) :
    ((sortByOrder (createNodes pages)).map RawPage.id).Nodup :=
  (((sortByOrder_perm (createNodes pages)).map _).nodup_iff).mpr (createNodes_nodup pages)

theorem relSt_assigned_facts (pages : List RawPage) {c p : String}
    (h : (treeOut pages).relSt.assigned c = some p) :
    p ∈ (sortByOrder (createNodes pages)).map RawPage.id
      ∧ c ∈ (sortByOrder (createNodes pages)).map RawPage.id
      ∧ ((sortByOrder (createNodes pages)).map RawPage.id).indexOf p
        < ((sortByOrder (createNodes pages)).map RawPage.id).indexOf c := by
  have hinv := treeOut_inv pages
  have h1 := hinv.assigned_mem c p h
  rw [take_len_map] at h1
  exact ⟨h1.1, h1.2, hinv.assigned_lt c p h⟩

theorem relSt_hedge (pages : List RawPage) :
    ∀ i c, c ∈ (treeOut pages).relSt.childrenOf i →
      c ∈ (sortByOrder (createNodes pages)).map RawPage.id
        ∧ ((sortByOrder (createNodes pages)).map RawPage.id).indexOf i
          < ((sortByOrder (createNodes pages)).map RawPage.id).indexOf c := by
  intro i c hc
  have hinv := treeOut_inv pages
  have ha := (hinv.children_iff i c).mp hc
  have := relSt_assigned_facts pages ha
  exact ⟨this.2.1, this.2.2⟩

theorem treeOut_cycMarked_nil (pages : List RawPage) :
    (runDfs (treeOut pages).relSt.childrenOf
      (fun i => (createNodes pages).any (fun q => q.id == i))
      ((createNodes pages).length + 1)
      ((createNodes pages).map (fun n => n.id))).cycMarked = [] := by
  have hlen : (sortByOrder (createNodes pages)).length = (createNodes pages).length :=
    (sortByOrder_perm _).length_eq
  have hLlen : ((sortByOrder (createNodes pages)).map RawPage.id).length
      = (createNodes pages).length := by
    rw [List.length_map]
    exact hlen
  refine (runDfs_noop _ _ _ (relSt_hedge pages) _ ?_ _ (by omega)).2
  intro i hi
  have : ((sortByOrder (createNodes pages)).map RawPage.id).Perm
      ((createNodes pages).map RawPage.id) := (sortByOrder_perm _).map _
  exact this.mem_iff.mpr (by simpa using hi)

theorem treeOut_orphanFlag_eq (pages : List RawPage) (j : String) :
    (treeOut pages).orphanFlag j = (treeOut pages).relSt.orphanFlag j := by
  show ((treeOut pages).relSt.orphanFlag j
      || (runDfs (treeOut pages).relSt.childrenOf
        (fun i => (createNodes pages).any (fun q => q.id == i))
        ((createNodes pages).length + 1)
        ((createNodes pages).map (fun n => n.id))).cycMarked.contains j)
      = (treeOut pages).relSt.orphanFlag j
  rw [treeOut_cycMarked_nil]
  simp only [List.contains_nil, Bool.or_false]

theorem treeOut_reason_eq (pages : List RawPage) (j : String) :
    (treeOut pages).reasonOf j = (treeOut pages).relSt.reasonOf j := by
  show (if (runDfs (treeOut pages).relSt.childrenOf
        (fun i => (createNodes pages).any (fun q => q.id == i))
        ((createNodes pages).length + 1)
        ((createNodes pages).map (fun n => n.id))).cycMarked.contains j
      then some cycleReason else (treeOut pages).relSt.reasonOf j)
      = (treeOut pages).relSt.reasonOf j
  rw [treeOut_cycMarked_nil]
  rfl

theorem nodeData_id (pages : List RawPage) {i : String}
    (hi : i ∈ (createNodes pages).map RawPage.id) :
    (nodeData (treeOut pages) i).id = i := by
  rw [nodeData]
  have hex : ∃ n ∈ createNodes pages, (fun n => n.id == i) n = true := by
    obtain ⟨n, hn, hni⟩ := List.mem_map.mp hi
    exact ⟨n, hn, by simp [hni]⟩
  cases hfind : (treeOut pages).nodes.find? (fun n => n.id == i) with
  | none =>
    have : (treeOut pages).nodes = createNodes pages := rfl
    rw [this] at hfind
    rw [List.find?_eq_none] at hfind
    obtain ⟨n, hn, hni⟩ := hex
    exact absurd hni (by simpa using hfind n hn)
  | some n =>
    have := List.find?_some hfind
    dsimp only
    exact eq_of_beq this

theorem asgOf_wf (pages : List RawPage) :
    ∀ c p, asgOf pages c = some p →
      p ∈ sortedIds pages
        ∧ (sortedIds pages).indexOf p < (sortedIds pages).indexOf c := by
  intro c p h
  have := relSt_assigned_facts pages h
  exact ⟨this.1, this.2.2⟩

theorem ancChain_none {asg : String → Option String} {x : String}
    (h : asg x = none) : ∀ fuel, ancChain asg fuel x = [] := by
  intro fuel
  cases fuel with
  | zero => rfl
  | succ f =>
    show (match asg x with
      | none => []
      | some p => p :: ancChain asg f p) = []
    rw [h]

theorem ancChain_succ (asg : String → Option String) (f : Nat) (x : String) :
    ancChain asg (f + 1) x
      = match asg x with
        | none => []
        | some p => p :: ancChain asg f p := rfl

theorem ancChain_stable {asg : String → Option String} {L : List String}
    (hwf : ∀ c p, asg c = some p → p ∈ L ∧ L.indexOf p < L.indexOf c) :
    ∀ (d : Nat) (x : String), L.indexOf x ≤ d →
      ∀ f1 f2, L.indexOf x ≤ f1 → L.indexOf x ≤ f2 →
        ancChain asg f1 x = ancChain asg f2 x := by
  intro d
  induction d with
  | zero =>
    intro x hx f1 f2 _ _
    cases hax : asg x with
    | none => rw [ancChain_none hax, ancChain_none hax]
    | some p =>
      have hp := (hwf x p hax).2
      exact absurd hp (by omega)
  | succ d ih =>
    intro x hx f1 f2 h1 h2
    cases hax : asg x with
    | none => rw [ancChain_none hax, ancChain_none hax]
    | some p =>
      have hp := (hwf x p hax).2
      cases f1 with
      | zero => exact absurd hp (by omega)
      | succ a =>
        cases f2 with
        | zero => exact absurd hp (by omega)
        | succ b =>
          rw [ancChain_succ, ancChain_succ, hax]
          have : ancChain asg a p = ancChain asg b p :=
            ih p (by omega) a b (by omega) (by omega)
          show p :: ancChain asg a p = p :: ancChain asg b p
          rw [this]

theorem ancChain_lt {asg : String → Option String} {L : List String}
    (hwf : ∀ c p, asg c = some p → p ∈ L ∧ L.indexOf p < L.indexOf c) :
    ∀ (fuel : Nat) (x a : String), a ∈ ancChain asg fuel x →
      a ∈ L ∧ L.indexOf a < L.indexOf x := by
  intro fuel
  induction fuel with
  | zero =>
    intro x a ha
    exact absurd ha (List.not_mem_nil a)
  | succ f ih =>
    intro x a ha
    cases hax : asg x with
    | none =>
      rw [ancChain_none hax] at ha
      exact absurd ha (List.not_mem_nil a)
    | some p =>
      rw [ancChain_succ, hax] at ha
      rcases List.mem_cons.mp ha with h | h
      · subst h
        exact hwf x a hax
      · have := ih p a h
        exact ⟨this.1, lt_trans this.2 (hwf x p hax).2⟩

theorem ancChain_not_self {asg : String → Option String} {L : List String}
    (hwf : ∀ c p, asg c = some p → p ∈ L ∧ L.indexOf p < L.indexOf c)
    (fuel : Nat) (x : String) : x ∉ ancChain asg fuel x :=
  fun h => absurd (ancChain_lt hwf fuel x x h).2 (lt_irrefl _)

theorem ancChain_unfold {asg : String → Option String} {L : List String}
    (hwf : ∀ c p, asg c = some p → p ∈ L ∧ L.indexOf p < L.indexOf c)
    (x : String) :
    ancChain asg L.length x
      = match asg x with
        | none => []
        | some p => p :: ancChain asg L.length p := by
  cases hax : asg x with
  | none => rw [ancChain_none hax]
  | some p =>
    have hp := hwf x p hax
    have hxle : L.indexOf x ≤ L.length := List.indexOf_le_length
    cases hL : L.length with
    | zero =>
      have hmem := hp.1
      rw [List.length_eq_zero] at hL
      subst hL
      exact absurd hmem (List.not_mem_nil p)
    | succ m =>
      rw [ancChain_succ, hax]
      have : ancChain asg m p = ancChain asg (m + 1) p :=
        ancChain_stable hwf (L.indexOf p) p le_rfl m (m + 1) (by omega) (by omega)
      show p :: ancChain asg m p = p :: ancChain asg (m + 1) p
      rw [this]

theorem ancChain_nodup {asg : String → Option String} {L : List String}
    (hwf : ∀ c p, asg c = some p → p ∈ L ∧ L.indexOf p < L.indexOf c) :
    ∀ (d : Nat) (x : String), L.indexOf x ≤ d →
      (x :: ancChain asg L.length x).Nodup := by
  intro d
  induction d with
  | zero =>
    intro x _
    cases hax : asg x with
    | none =>
      rw [ancChain_none hax]
      exact List.nodup_singleton x
    | some p =>
      have hp := (hwf x p hax).2
      exact absurd hp (by omega)
  | succ d ih =>
    intro x hx
    cases hax : asg x with
    | none =>
      rw [ancChain_none hax]
      exact List.nodup_singleton x
    | some p =>
      rw [ancChain_unfold hwf, hax]
      have hp := hwf x p hax
      have hchain := ih p (by omega)
      refine List.nodup_cons.mpr ⟨?_, hchain⟩
      intro hxin
      rcases List.mem_cons.mp hxin with h | h
      · subst h
        exact absurd hp.2 (lt_irrefl _)
      · have := ancChain_lt hwf L.length p x h
        omega

theorem countP_split_mem (l : List String) (y : String) (R : List String)
    (hy : y ∉ R) :
    l.countP (fun c => decide (c ∈ y :: R))
      = l.count y + l.countP (fun c => decide (c ∈ R)) := by
  induction l with
  | nil => rfl
  | cons a l ih =>
    rw [List.countP_cons, List.countP_cons, List.count_cons, ih]
    by_cases ha : a = y
    · subst ha
      simp [hy]
      omega
    · by_cases hR : a ∈ R
      · simp [ha, hR]
        omega
      · simp [ha, hR]

theorem ancChain_some {asg : String → Option String} {L : List String}
    (hwf : ∀ c p, asg c = some p → p ∈ L ∧ L.indexOf p < L.indexOf c)
    {x p : String} (h : asg x = some p) :
    ancChain asg L.length x = p :: ancChain asg L.length p := by
  rw [ancChain_unfold hwf x, h]

theorem chain_child_countP {asg : String → Option String} {L : List String}
    {children : String → List String}
    (hwf : ∀ c p, asg c = some p → p ∈ L ∧ L.indexOf p < L.indexOf c)
    (hiff : ∀ i c, c ∈ children i ↔ asg c = some i)
    (hnd : ∀ i, (children i).Nodup) :
    ∀ (d : Nat) (y : String), L.indexOf y ≤ d → ∀ i,
      (children i).countP (fun c => decide (c ∈ y :: ancChain asg L.length y))
        = if i ∈ ancChain asg L.length y then 1 else 0 := by
  intro d
  induction d with
  | zero =>
    intro y hy i
    cases hay : asg y with
    | none =>
      rw [ancChain_none hay]
      rw [if_neg (List.not_mem_nil i)]
      rw [List.countP_eq_zero]
      intro c hc
      simp only [List.mem_cons, List.not_mem_nil, or_false, decide_eq_true_eq]
      intro hcy
      rw [hcy] at hc
      have hcontra := (hiff i y).mp hc
      rw [hay] at hcontra
      exact Option.noConfusion hcontra
    | some p => exact absurd (hwf y p hay).2 (by omega)
  | succ d ih =>
    intro y hy i
    cases hay : asg y with
    | none =>
      rw [ancChain_none hay]
      rw [if_neg (List.not_mem_nil i)]
      rw [List.countP_eq_zero]
      intro c hc
      simp only [List.mem_cons, List.not_mem_nil, or_false, decide_eq_true_eq]
      intro hcy
      rw [hcy] at hc
      have hcontra := (hiff i y).mp hc
      rw [hay] at hcontra
      exact Option.noConfusion hcontra
    | some p =>
      have hp := hwf y p hay
      have hchain : ancChain asg L.length y = p :: ancChain asg L.length p :=
        ancChain_some hwf hay
      rw [hchain]
      have hynotin : y ∉ p :: ancChain asg L.length p := by
        intro h
        rcases List.mem_cons.mp h with h | h
        · rw [h] at hp
          exact absurd hp.2 (lt_irrefl _)
        · have := ancChain_lt hwf L.length p y h
          omega
      rw [countP_split_mem _ _ _ hynotin]
      rw [ih p (by omega) i]
      by_cases hip : i = p
      · rw [hip]
        have hymem : y ∈ children p := (hiff p y).mpr hay
        rw [List.count_eq_one_of_mem (hnd p) hymem,
          if_neg (ancChain_not_self hwf _ p), if_pos (List.mem_cons_self p _)]
      · have h0 : (children i).count y = 0 := by
          rw [List.count_eq_zero]
          intro hmem
          have hcontra := (hiff i y).mp hmem
          rw [hay] at hcontra
          exact hip (Option.some.inj hcontra).symm
        rw [h0]
        by_cases him : i ∈ ancChain asg L.length p
        · rw [if_pos him, if_pos (List.mem_cons_of_mem p him)]
        · rw [if_neg him, if_neg (fun h => by
            rcases List.mem_cons.mp h with h | h
            · exact hip h
            · exact him h)]

theorem flattenIdsList_count_map (f : String → PageT) (x : String)
    (P : String → Bool) :
    ∀ (cs : List String),
      (∀ c ∈ cs, (flattenIds (f c)).count x = if P c then 1 else 0) →
      (flattenIdsList (cs.map f)).count x = cs.countP P := by
  intro cs
  induction cs with
  | nil => intro _; rfl
  | cons c cs ih =>
    intro h
    show (flattenIds (f c) ++ flattenIdsList (cs.map f)).count x
      = (c :: cs).countP P
    rw [List.count_append, ih (fun a ha => h a (List.mem_cons_of_mem c ha)),
      h c (List.mem_cons_self c cs), List.countP_cons]
    exact Nat.add_comm _ _

theorem flatten_count (pages : List RawPage) :
    ∀ (fuel : Nat) (i : String), i ∈ sortedIds pages →
      (sortedIds pages).length - (sortedIds pages).indexOf i ≤ fuel →
      ∀ x, (flattenIds (toTree (treeOut pages) fuel i)).count x
        = if x = i ∨ i ∈ ancChain (asgOf pages) (sortedIds pages).length x
          then 1 else 0 := by
  intro fuel
  induction fuel with
  | zero =>
    intro i hi hf x
    have hidx : (sortedIds pages).indexOf i < (sortedIds pages).length :=
      List.indexOf_lt_length.mpr hi
    exact absurd hf (by omega)
  | succ f ih =>
    intro i hi hf x
    have hidx : (sortedIds pages).indexOf i < (sortedIds pages).length :=
      List.indexOf_lt_length.mpr hi
    have hid : (nodeData (treeOut pages) i).id = i := by
      apply nodeData_id
      have hperm : (sortedIds pages).Perm ((createNodes pages).map RawPage.id) :=
        (sortByOrder_perm _).map _
      exact hperm.mem_iff.mp hi
    have hwf := asgOf_wf pages
    have hiff2 : ∀ j c, c ∈ (treeOut pages).relSt.childrenOf j
        ↔ asgOf pages c = some j := (treeOut_inv pages).children_iff
    have hnd := (treeOut_inv pages).children_nodup
    show ((nodeData (treeOut pages) i).id
        :: flattenIdsList (((treeOut pages).relSt.childrenOf i).map
          (toTree (treeOut pages) f))).count x
      = if x = i ∨ i ∈ ancChain (asgOf pages) (sortedIds pages).length x
        then 1 else 0
    rw [hid, List.count_cons]
    have hkid : ∀ c ∈ (treeOut pages).relSt.childrenOf i,
        (flattenIds (toTree (treeOut pages) f c)).count x
          = if (fun c => decide
              (c ∈ x :: ancChain (asgOf pages) (sortedIds pages).length x)) c
            then 1 else 0 := by
      intro c hc
      have hac : asgOf pages c = some i := (hiff2 i c).mp hc
      have hfacts := relSt_assigned_facts pages hac
      have hcmem : c ∈ sortedIds pages := hfacts.2.1
      have hlt : (sortedIds pages).indexOf i < (sortedIds pages).indexOf c :=
        hfacts.2.2
      have hcidx : (sortedIds pages).indexOf c < (sortedIds pages).length :=
        List.indexOf_lt_length.mpr hcmem
      rw [ih c hcmem (by omega) x]
      have hiffm : (x = c
            ∨ c ∈ ancChain (asgOf pages) (sortedIds pages).length x)
          ↔ c ∈ x :: ancChain (asgOf pages) (sortedIds pages).length x := by
        rw [List.mem_cons, eq_comm]
      by_cases hm : x = c ∨ c ∈ ancChain (asgOf pages) (sortedIds pages).length x
      · rw [if_pos hm, if_pos (decide_eq_true (hiffm.mp hm))]
      · rw [if_neg hm, if_neg (fun hd => hm (hiffm.mpr (of_decide_eq_true hd)))]
    rw [flattenIdsList_count_map (toTree (treeOut pages) f) x
      (fun c => decide (c ∈ x :: ancChain (asgOf pages) (sortedIds pages).length x))
      ((treeOut pages).relSt.childrenOf i) hkid]
    rw [chain_child_countP hwf hiff2 hnd ((sortedIds pages).indexOf x) x le_rfl i]
    simp only [beq_iff_eq]
    by_cases hxi : i = x
    · subst hxi
      rw [if_neg (ancChain_not_self hwf _ i), if_pos rfl, if_pos (Or.inl rfl)]
    · by_cases him : i ∈ ancChain (asgOf pages) (sortedIds pages).length x
      · rw [if_pos him, if_neg hxi, if_pos (Or.inr him)]
      · rw [if_neg him, if_neg hxi, if_neg (fun h => by
          rcases h with h | h
          · exact hxi h.symm
          · exact him h)]

theorem mem_flattenIdsList_map (f : String → PageT) (x : String) :
    ∀ (cs : List String),
      x ∈ flattenIdsList (cs.map f) ↔ ∃ c ∈ cs, x ∈ flattenIds (f c) := by
  intro cs
  induction cs with
  | nil => simp [flattenIdsList]
  | cons c cs ih =>
    constructor
    · intro h
      have h2 : x ∈ flattenIds (f c) ++ flattenIdsList (cs.map f) := h
      rcases List.mem_append.mp h2 with h3 | h3
      · exact ⟨c, List.mem_cons_self c cs, h3⟩
      · obtain ⟨a, ha, hxa⟩ := ih.mp h3
        exact ⟨a, List.mem_cons_of_mem c ha, hxa⟩
    · rintro ⟨a, ha, hxa⟩
      show x ∈ flattenIds (f c) ++ flattenIdsList (cs.map f)
      rcases List.mem_cons.mp ha with h3 | h3
      · rw [h3] at hxa
        exact List.mem_append.mpr (Or.inl hxa)
      · exact List.mem_append.mpr (Or.inr (ih.mpr ⟨a, h3, hxa⟩))

theorem noSelfDescList_map_all {α : Type} (f : α → PageT) :
    ∀ (cs : List α),
      (∀ c ∈ cs, noSelfDescB (f c) = true) →
      noSelfDescList (cs.map f) = true := by
  intro cs
  induction cs with
  | nil => intro _; rfl
  | cons c cs ih =>
    intro h
    show (noSelfDescB (f c) && noSelfDescList (cs.map f)) = true
    rw [h c (List.mem_cons_self c cs),
      ih (fun a ha => h a (List.mem_cons_of_mem c ha))]
    rfl

theorem noSelfDesc_toTree (pages : List RawPage) :
    ∀ (fuel : Nat) (i : String), i ∈ sortedIds pages →
      (sortedIds pages).length - (sortedIds pages).indexOf i ≤ fuel →
      noSelfDescB (toTree (treeOut pages) fuel i) = true := by
  intro fuel
  induction fuel with
  | zero =>
    intro i hi hf
    have hidx : (sortedIds pages).indexOf i < (sortedIds pages).length :=
      List.indexOf_lt_length.mpr hi
    exact absurd hf (by omega)
  | succ f ih =>
    intro i hi hf
    have hidx : (sortedIds pages).indexOf i < (sortedIds pages).length :=
      List.indexOf_lt_length.mpr hi
    have hid : (nodeData (treeOut pages) i).id = i := by
      apply nodeData_id
      exact ((sortByOrder_perm _).map RawPage.id).mem_iff.mp hi
    have hwf := asgOf_wf pages
    have hiff2 : ∀ j c, c ∈ (treeOut pages).relSt.childrenOf j
        ↔ asgOf pages c = some j := (treeOut_inv pages).children_iff
    show (!(flattenIdsList (((treeOut pages).relSt.childrenOf i).map
          (toTree (treeOut pages) f))).contains (nodeData (treeOut pages) i).id
        && noSelfDescList (((treeOut pages).relSt.childrenOf i).map
          (toTree (treeOut pages) f))) = true
    rw [hid]
    have hkidfacts : ∀ c ∈ (treeOut pages).relSt.childrenOf i,
        c ∈ sortedIds pages
          ∧ (sortedIds pages).indexOf i < (sortedIds pages).indexOf c := by
      intro c hc
      have hfacts := relSt_assigned_facts pages ((hiff2 i c).mp hc)
      exact ⟨hfacts.2.1, hfacts.2.2⟩
    have hnotin : i ∉ flattenIdsList (((treeOut pages).relSt.childrenOf i).map
        (toTree (treeOut pages) f)) := by
      intro hmem
      obtain ⟨c, hc, hic⟩ := (mem_flattenIdsList_map _ i _).mp hmem
      have hcf := hkidfacts c hc
      have hcidx : (sortedIds pages).indexOf c < (sortedIds pages).length :=
        List.indexOf_lt_length.mpr hcf.1
      have hcount := flatten_count pages f c hcf.1 (by omega) i
      have hpos : 0 < (flattenIds (toTree (treeOut pages) f c)).count i :=
        List.count_pos_iff_mem.mpr hic
      rw [hcount] at hpos
      by_cases hcond : i = c ∨ c ∈ ancChain (asgOf pages) (sortedIds pages).length i
      · rcases hcond with h | h
        · rw [h] at hcf
          exact absurd hcf.2 (lt_irrefl _)
        · have := ancChain_lt hwf (sortedIds pages).length i c h
          omega
      · rw [if_neg hcond] at hpos
        exact absurd hpos (lt_irrefl 0)
    have hlist : noSelfDescList (((treeOut pages).relSt.childrenOf i).map
        (toTree (treeOut pages) f)) = true := by
      apply noSelfDescList_map_all
      intro c hc
      have hcf := hkidfacts c hc
      have hcidx : (sortedIds pages).indexOf c < (sortedIds pages).length :=
        List.indexOf_lt_length.mpr hcf.1
      exact ih c hcf.1 (by omega)
    rw [hlist]
    have : (flattenIdsList (((treeOut pages).relSt.childrenOf i).map
        (toTree (treeOut pages) f))).contains i = false := by
      simpa using hnotin
    rw [this]
    rfl

theorem treeOut_roots_sub (pages : List RawPage) :
    ∀ n ∈ (treeOut pages).rootNodes, n ∈ createNodes pages := by
  intro n hn
  have hn2 : n ∈ (createNodes pages).filter (fun n =>
      !(treeOut pages).orphanFlag n.id
        && (n.level == 0 || !truthyOptStr (effParent (treeOut pages).relSt n))) :=
    (sortByOrder_perm _).mem_iff.mp hn
  exact List.mem_of_mem_filter hn2

theorem treeOut_orphans_sub (pages : List RawPage) :
    ∀ n ∈ (treeOut pages).orphanNodes, n ∈ createNodes pages := by
  intro n hn
  have hn2 : n ∈ (createNodes pages).filter
      (fun n => (treeOut pages).orphanFlag n.id) :=
    (sortByOrder_perm _).mem_iff.mp hn
  exact List.mem_of_mem_filter hn2

theorem mem_sortedIds_of_node (pages : List RawPage) {n : RawPage}
    (hn : n ∈ createNodes pages) : n.id ∈ sortedIds pages :=
  List.mem_map.mpr ⟨n, (sortByOrder_perm _).mem_iff.mpr hn, rfl⟩

theorem relSt_orphan_facts (pages : List RawPage) {c : String}
    (h : (treeOut pages).relSt.orphanFlag c = true) :
    c ∈ sortedIds pages ∧ asgOf pages c = none
      ∧ (treeOut pages).relSt.reasonOf c = some noParentReason := by
  have hinv := treeOut_inv pages
  have hsp := hinv.orphan_spec c h
  rw [take_len_map] at hsp
  exact hsp

theorem relSt_untouched (pages : List RawPage) {c : String}
    (h : c ∉ sortedIds pages) :
    asgOf pages c = none ∧ (treeOut pages).relSt.orphanFlag c = false := by
  have hinv := treeOut_inv pages
  have h2 : c ∉ ((sortByOrder (createNodes pages)).map RawPage.id).take
      (sortByOrder (createNodes pages)).length := by
    rw [take_len_map]
    exact h
  exact ⟨hinv.untouched_assigned c h2, hinv.untouched_orphan c h2⟩

theorem relSt_handled (pages : List RawPage) {n : RawPage}
    (hn : n ∈ sortByOrder (createNodes pages)) (hl : 0 < n.level) :
    asgOf pages n.id ≠ none ∨ (treeOut pages).relSt.orphanFlag n.id = true := by
  have hinv := treeOut_inv pages
  exact hinv.handled n (by rw [List.take_length]; exact hn) hl

theorem chain_terminal_count {asg : String → Option String} {L : List String}
    (hwf : ∀ c p, asg c = some p → p ∈ L ∧ L.indexOf p < L.indexOf c) :
    ∀ (d : Nat) (x : String), L.indexOf x ≤ d →
      (x :: ancChain asg L.length x).countP (fun y => decide (asg y = none))
        = 1 := by
  intro d
  induction d with
  | zero =>
    intro x hx
    cases hax : asg x with
    | none =>
      rw [ancChain_none hax]
      simp [List.countP_cons, hax]
    | some p => exact absurd (hwf x p hax).2 (by omega)
  | succ d ih =>
    intro x hx
    cases hax : asg x with
    | none =>
      rw [ancChain_none hax]
      simp [List.countP_cons, hax]
    | some p =>
      have hp := (hwf x p hax).2
      rw [ancChain_some hwf hax, List.countP_cons]
      rw [ih p (by omega)]
      simp [hax]

theorem countP_mem_exchange (A B : List String) (hA : A.Nodup) (hB : B.Nodup) :
    A.countP (fun a => decide (a ∈ B)) = B.countP (fun b => decide (b ∈ A)) := by
  rw [List.countP_eq_length_filter, List.countP_eq_length_filter]
  apply List.Perm.length_eq
  apply (List.perm_ext_iff_of_nodup (hA.filter _) (hB.filter _)).mpr
  intro a
  simp only [List.mem_filter, decide_eq_true_eq]
  exact and_comm

theorem flattenIdsList_append : ∀ (a b : List PageT),
    flattenIdsList (a ++ b) = flattenIdsList a ++ flattenIdsList b := by
  intro a b
  induction a with
  | nil => rfl
  | cons t ts ih =>
    show flattenIds t ++ flattenIdsList (ts ++ b)
      = (flattenIds t ++ flattenIdsList ts) ++ flattenIdsList b
    rw [ih, List.append_assoc]

theorem flattenIdsList_perm : ∀ (l : List PageT),
    (flattenIdsList l).Perm
      (l.map (fun t => t.data.id) ++ l.flatMap strictDescIds) := by
  intro l
  induction l with
  | nil => exact List.Perm.refl _
  | cons t ts ih =>
    cases t with
    | mk d kids =>
      show ((d.id :: flattenIdsList kids) ++ flattenIdsList ts).Perm
        ((d.id :: ts.map (fun t => t.data.id))
          ++ (flattenIdsList kids ++ ts.flatMap strictDescIds))
      rw [List.cons_append, List.cons_append]
      refine List.Perm.cons d.id ?_
      refine (List.Perm.append_left (flattenIdsList kids) ih).trans ?_
      rw [← List.append_assoc, ← List.append_assoc]
      exact List.Perm.append_right _ List.perm_append_comm

theorem sortedIds_length (pages : List RawPage) :
    (sortedIds pages).length = (createNodes pages).length := by
  show ((sortByOrder (createNodes pages)).map RawPage.id).length
    = (createNodes pages).length
  rw [List.length_map]
  exact (sortByOrder_perm _).length_eq

theorem perm_rotate {α : Type} (A B C : List α) :
    (A ++ (B ++ C)).Perm (B ++ (A ++ C)) := by
  rw [← List.append_assoc, ← List.append_assoc]
  exact List.Perm.append_right _ List.perm_append_comm

theorem mem_rootIds_iff (pages : List RawPage) (y : String) :
    y ∈ (treeOut pages).rootNodes.map RawPage.id
      ↔ ∃ n ∈ createNodes pages, n.id = y
          ∧ (treeOut pages).orphanFlag n.id = false
          ∧ ((n.level == 0) = true
              ∨ truthyOptStr (effParent (treeOut pages).relSt n) = false) := by
  constructor
  · intro h
    obtain ⟨n, hn, hny⟩ := List.mem_map.mp h
    have hn2 : n ∈ (createNodes pages).filter (fun n =>
        !(treeOut pages).orphanFlag n.id
          && (n.level == 0 || !truthyOptStr (effParent (treeOut pages).relSt n))) :=
      (sortByOrder_perm _).mem_iff.mp hn
    have hmem := List.mem_of_mem_filter hn2
    have hcond := List.of_mem_filter hn2
    simp only [Bool.and_eq_true, Bool.or_eq_true, Bool.not_eq_true'] at hcond
    exact ⟨n, hmem, hny, hcond.1, hcond.2⟩
  · rintro ⟨n, hn, hny, hof, hc⟩
    apply List.mem_map.mpr
    refine ⟨n, ?_, hny⟩
    have hfil : n ∈ (createNodes pages).filter (fun n =>
        !(treeOut pages).orphanFlag n.id
          && (n.level == 0 || !truthyOptStr (effParent (treeOut pages).relSt n))) := by
      apply List.mem_filter.mpr
      refine ⟨hn, ?_⟩
      simp only [Bool.and_eq_true, Bool.or_eq_true, Bool.not_eq_true']
      exact ⟨hof, hc⟩
    exact (sortByOrder_perm _).mem_iff.mpr hfil

theorem mem_orphanIds_iff (pages : List RawPage) (y : String) :
    y ∈ (treeOut pages).orphanNodes.map RawPage.id
      ↔ ∃ n ∈ createNodes pages, n.id = y
          ∧ (treeOut pages).orphanFlag n.id = true := by
  constructor
  · intro h
    obtain ⟨n, hn, hny⟩ := List.mem_map.mp h
    have hn2 : n ∈ (createNodes pages).filter
        (fun n => (treeOut pages).orphanFlag n.id) :=
      (sortByOrder_perm _).mem_iff.mp hn
    have hsplit := List.mem_filter.mp hn2
    exact ⟨n, hsplit.1, hny, hsplit.2⟩
  · rintro ⟨n, hn, hny, hof⟩
    apply List.mem_map.mpr
    refine ⟨n, ?_, hny⟩
    have hfil : n ∈ (createNodes pages).filter
        (fun n => (treeOut pages).orphanFlag n.id) :=
      List.mem_filter.mpr ⟨hn, hof⟩
    exact (sortByOrder_perm _).mem_iff.mpr hfil

theorem roIds_iff (pages : List RawPage)
    (H2 : ∀ p ∈ pages, 0 ≤ p.level) (H3 : ∀ p ∈ pages, p.id ≠ "")
    (hnodes : createNodes pages = pages) (y : String) :
    (y ∈ (treeOut pages).rootNodes.map RawPage.id
        ∨ y ∈ (treeOut pages).orphanNodes.map RawPage.id)
      ↔ (y ∈ sortedIds pages ∧ asgOf pages y = none) := by
  constructor
  · intro h
    rcases h with h | h
    · obtain ⟨n, hn, hny, _, hc⟩ := (mem_rootIds_iff pages y).mp h
      refine ⟨hny ▸ mem_sortedIds_of_node pages hn, ?_⟩
      cases hasg : asgOf pages y with
      | none => rfl
      | some p =>
        exfalso
        have hasg2 : (treeOut pages).relSt.assigned n.id = some p := by
          rw [hny]
          exact hasg
        have hns : n ∈ sortByOrder (createNodes pages) :=
          (sortByOrder_perm _).mem_iff.mpr hn
        have hlvl := (treeOut_inv pages).assigned_level n.id p hasg2 n hns rfl
        have hp := relSt_assigned_facts pages hasg2
        obtain ⟨m, hms, hmp⟩ := List.mem_map.mp hp.1
        have hmn : m ∈ pages := hnodes ▸ (sortByOrder_perm _).mem_iff.mp hms
        have hpne : p ≠ "" := hmp ▸ H3 m hmn
        have heff : effParent (treeOut pages).relSt n = some p := by
          simp only [effParent, hasg2]
        rcases hc with hc | hc
        · rw [beq_iff_eq] at hc
          omega
        · rw [heff] at hc
          have htr : truthyOptStr (some p) = true := by
            simp only [truthyOptStr, Bool.not_eq_true']
            exact beq_eq_false_iff_ne.mpr hpne
          rw [htr] at hc
          exact Bool.noConfusion hc
    · obtain ⟨n, hn, hny, hof⟩ := (mem_orphanIds_iff pages y).mp h
      rw [hny] at hof
      rw [treeOut_orphanFlag_eq] at hof
      have := relSt_orphan_facts pages hof
      exact ⟨this.1, this.2.1⟩
  · rintro ⟨hyL, hasg⟩
    obtain ⟨m, hm, hmy⟩ := List.mem_map.mp hyL
    have hmn : m ∈ createNodes pages := (sortByOrder_perm _).mem_iff.mp hm
    by_cases hof : (treeOut pages).orphanFlag y = true
    · right
      exact (mem_orphanIds_iff pages y).mpr ⟨m, hmn, hmy, by rw [hmy]; exact hof⟩
    · left
      have hof' : (treeOut pages).orphanFlag y = false := by
        cases hb : (treeOut pages).orphanFlag y with
        | false => rfl
        | true => exact absurd hb hof
      apply (mem_rootIds_iff pages y).mpr
      refine ⟨m, hmn, hmy, by rw [hmy]; exact hof', ?_⟩
      left
      rw [beq_iff_eq]
      by_contra hml
      have hml2 : 0 < m.level := by
        have := H2 m (hnodes ▸ hmn)
        omega
      rcases relSt_handled pages hm hml2 with hcon | hcon
      · rw [hmy] at hcon
        exact hcon hasg
      · rw [hmy, ← treeOut_orphanFlag_eq] at hcon
        rw [hof'] at hcon
        exact Bool.noConfusion hcon

theorem roIds_nodup (pages : List RawPage) :
    ((treeOut pages).rootNodes.map RawPage.id
      ++ (treeOut pages).orphanNodes.map RawPage.id).Nodup := by
  rw [List.nodup_append]
  refine ⟨?_, ?_, ?_⟩
  · have hperm : ((treeOut pages).rootNodes.map RawPage.id).Perm
        ((((createNodes pages).filter (fun n =>
          !(treeOut pages).orphanFlag n.id
            && (n.level == 0
              || !truthyOptStr (effParent (treeOut pages).relSt n)))).map
          RawPage.id)) :=
      (sortByOrder_perm _).map _
    apply hperm.nodup_iff.mpr
    exact (createNodes_nodup pages).sublist
      ((List.filter_sublist _).map RawPage.id)
  · have hperm : ((treeOut pages).orphanNodes.map RawPage.id).Perm
        ((((createNodes pages).filter
          (fun n => (treeOut pages).orphanFlag n.id)).map RawPage.id)) :=
      (sortByOrder_perm _).map _
    apply hperm.nodup_iff.mpr
    exact (createNodes_nodup pages).sublist
      ((List.filter_sublist _).map RawPage.id)
  · intro a ha hb
    obtain ⟨n, _, hny, hof, _⟩ := (mem_rootIds_iff pages a).mp ha
    obtain ⟨n2, _, hn2y, hof2⟩ := (mem_orphanIds_iff pages a).mp hb
    rw [hny] at hof
    rw [hn2y] at hof2
    rw [hof] at hof2
    exact Bool.noConfusion hof2

theorem buildPages_count (pages : List RawPage)
    (H2 : ∀ p ∈ pages, 0 ≤ p.level) (H3 : ∀ p ∈ pages, p.id ≠ "")
    (hnodes : createNodes pages = pages) (x : String) :
    (flattenIdsList ((((treeOut pages).rootNodes.map RawPage.id)
        ++ ((treeOut pages).orphanNodes.map RawPage.id)).map
      (toTree (treeOut pages) ((createNodes pages).length + 1)))).count x
      = if x ∈ sortedIds pages then 1 else 0 := by
  have hwf := asgOf_wf pages
  have hlen := sortedIds_length pages
  have hcs : ∀ c ∈ ((treeOut pages).rootNodes.map RawPage.id)
      ++ ((treeOut pages).orphanNodes.map RawPage.id),
      c ∈ sortedIds pages ∧ asgOf pages c = none := by
    intro c hc
    exact (roIds_iff pages H2 H3 hnodes c).mp (List.mem_append.mp hc)
  have hkid : ∀ c ∈ ((treeOut pages).rootNodes.map RawPage.id)
      ++ ((treeOut pages).orphanNodes.map RawPage.id),
      (flattenIds (toTree (treeOut pages) ((createNodes pages).length + 1) c)).count x
        = if (fun c => decide
            (c ∈ x :: ancChain (asgOf pages) (sortedIds pages).length x)) c
          then 1 else 0 := by
    intro c hc
    have hcL := (hcs c hc).1
    have hcidx : (sortedIds pages).indexOf c < (sortedIds pages).length :=
      List.indexOf_lt_length.mpr hcL
    rw [flatten_count pages ((createNodes pages).length + 1) c hcL (by omega) x]
    have hiffm : (x = c
          ∨ c ∈ ancChain (asgOf pages) (sortedIds pages).length x)
        ↔ c ∈ x :: ancChain (asgOf pages) (sortedIds pages).length x := by
      rw [List.mem_cons, eq_comm]
    by_cases hm : x = c ∨ c ∈ ancChain (asgOf pages) (sortedIds pages).length x
    · rw [if_pos hm, if_pos (decide_eq_true (hiffm.mp hm))]
    · rw [if_neg hm, if_neg (fun hd => hm (hiffm.mpr (of_decide_eq_true hd)))]
  rw [flattenIdsList_count_map _ x _ _ hkid]
  rw [countP_mem_exchange _ _ (roIds_nodup pages)
    (ancChain_nodup hwf ((sortedIds pages).indexOf x) x le_rfl)]
  by_cases hx : x ∈ sortedIds pages
  · rw [if_pos hx]
    have hcongr : ∀ y ∈ x :: ancChain (asgOf pages) (sortedIds pages).length x,
        ((decide (y ∈ ((treeOut pages).rootNodes.map RawPage.id)
            ++ ((treeOut pages).orphanNodes.map RawPage.id)) = true)
          ↔ (decide (asgOf pages y = none) = true)) := by
      intro y hy
      rw [decide_eq_true_eq, decide_eq_true_eq]
      have hyL : y ∈ sortedIds pages := by
        rcases List.mem_cons.mp hy with h | h
        · rw [h]
          exact hx
        · exact (ancChain_lt hwf (sortedIds pages).length x y h).1
      constructor
      · intro hmem
        exact (hcs y hmem).2
      · intro hnone
        exact List.mem_append.mpr
          ((roIds_iff pages H2 H3 hnodes y).mpr ⟨hyL, hnone⟩)
    rw [List.countP_congr hcongr]
    exact chain_terminal_count hwf ((sortedIds pages).indexOf x) x le_rfl
  · rw [if_neg hx]
    have hax : asgOf pages x = none := (relSt_untouched pages hx).1
    rw [ancChain_none hax]
    simp only [List.countP_cons, List.countP_nil]
    have hnmem : x ∉ ((treeOut pages).rootNodes.map RawPage.id)
        ++ ((treeOut pages).orphanNodes.map RawPage.id) :=
      fun hmem => hx (hcs x hmem).1
    simp [hnmem]

/-- C1 (amended): over inputs whose ids are pairwise distinct and nonempty
and whose levels are nonnegative, `PageTreeBuilder.build` is complete: the
root count plus the orphan count plus the count of strict descendants of
either equals the input length, and every input id occurs exactly once in
the output (never in both buckets, never in neither). -/
theorem claim1_tree_completeness (pages : List RawPage)
    (H1 : (pages.map RawPage.id).Nodup)
    (H2 : ∀ p ∈ pages, 0 ≤ p.level)
    (H3 : ∀ p ∈ pages, p.id ≠ "") :
    (buildPages pages).roots.length + (buildPages pages).orphans.length
        + ((buildPages pages).roots.flatMap strictDescIds
            ++ (buildPages pages).orphans.flatMap strictDescIds).length
      = pages.length
    ∧ ∀ x, ((buildPages pages).roots.map (fun t => t.data.id)
          ++ ((buildPages pages).orphans.map (fun t => t.data.id)
            ++ ((buildPages pages).roots.flatMap strictDescIds
              ++ (buildPages pages).orphans.flatMap strictDescIds))).count x
        = if x ∈ pages.map RawPage.id then 1 else 0 := by
  cases pages with
  | nil =>
    refine ⟨rfl, ?_⟩
    intro x
    show ([] : List String).count x
      = if x ∈ ([] : List RawPage).map RawPage.id then 1 else 0
    simp
  | cons q qs =>
    have hnodes : createNodes (q :: qs) = q :: qs := createNodes_eq_self _ H1
    have hroots : (buildPages (q :: qs)).roots
        = (treeOut (q :: qs)).rootNodes.map
          (fun n => toTree (treeOut (q :: qs))
            ((createNodes (q :: qs)).length + 1) n.id) := rfl
    have horph : (buildPages (q :: qs)).orphans
        = (treeOut (q :: qs)).orphanNodes.map
          (fun n => toTree (treeOut (q :: qs))
            ((createNodes (q :: qs)).length + 1) n.id) := rfl
    have hlist : (buildPages (q :: qs)).roots ++ (buildPages (q :: qs)).orphans
        = (((treeOut (q :: qs)).rootNodes.map RawPage.id)
            ++ ((treeOut (q :: qs)).orphanNodes.map RawPage.id)).map
          (toTree (treeOut (q :: qs)) ((createNodes (q :: qs)).length + 1)) := by
      rw [hroots, horph, ← List.map_append, ← List.map_append, List.map_map]
      rfl
    have hmemiff : ∀ x, (x ∈ sortedIds (q :: qs)
        ↔ x ∈ (q :: qs).map RawPage.id) := by
      intro x
      have hperm : (sortedIds (q :: qs)).Perm ((createNodes (q :: qs)).map RawPage.id) :=
        (sortByOrder_perm _).map _
      rw [hperm.mem_iff, hnodes]
    have hIcount : ∀ x, (flattenIdsList ((buildPages (q :: qs)).roots
        ++ (buildPages (q :: qs)).orphans)).count x
        = if x ∈ (q :: qs).map RawPage.id then 1 else 0 := by
      intro x
      rw [hlist, buildPages_count _ H2 H3 hnodes x]
      by_cases hx : x ∈ sortedIds (q :: qs)
      · rw [if_pos hx, if_pos ((hmemiff x).mp hx)]
      · rw [if_neg hx, if_neg (fun h => hx ((hmemiff x).mpr h))]
    have hIgrouped : (flattenIdsList ((buildPages (q :: qs)).roots
          ++ (buildPages (q :: qs)).orphans)).Perm
        ((buildPages (q :: qs)).roots.map (fun t => t.data.id)
          ++ (((buildPages (q :: qs)).orphans.map (fun t => t.data.id))
            ++ ((buildPages (q :: qs)).roots.flatMap strictDescIds
              ++ (buildPages (q :: qs)).orphans.flatMap strictDescIds))) := by
      rw [flattenIdsList_append]
      refine ((flattenIdsList_perm _).append (flattenIdsList_perm _)).trans ?_
      rw [List.append_assoc]
      exact List.Perm.append_left _ (perm_rotate _ _ _)
    have hgcount : ∀ x, ((buildPages (q :: qs)).roots.map (fun t => t.data.id)
          ++ (((buildPages (q :: qs)).orphans.map (fun t => t.data.id))
            ++ ((buildPages (q :: qs)).roots.flatMap strictDescIds
              ++ (buildPages (q :: qs)).orphans.flatMap strictDescIds))).count x
        = if x ∈ (q :: qs).map RawPage.id then 1 else 0 := by
      intro x
      rw [← hIgrouped.count_eq]
      exact hIcount x
    refine ⟨?_, hgcount⟩
    have hperm2 : ((buildPages (q :: qs)).roots.map (fun t => t.data.id)
          ++ (((buildPages (q :: qs)).orphans.map (fun t => t.data.id))
            ++ ((buildPages (q :: qs)).roots.flatMap strictDescIds
              ++ (buildPages (q :: qs)).orphans.flatMap strictDescIds))).Perm
        ((q :: qs).map RawPage.id) := by
      apply List.perm_iff_count.mpr
      intro a
      rw [hgcount a]
      by_cases h : a ∈ (q :: qs).map RawPage.id
      · rw [if_pos h, List.count_eq_one_of_mem H1 h]
      · rw [if_neg h, List.count_eq_zero_of_not_mem h]
    have hle := hperm2.length_eq
    simp only [List.length_append, List.length_map] at hle ⊢
    omega

/-- C1 counterexample: with a duplicated input id the node dict collapses
the two records into one, so the original (unconditional) completeness
equation fails: two input pages yield one root, no orphans and no
descendants. -/
theorem claim1_counterexample :
    ¬ ((buildPages [exPage "x" 0 0, exPage "x" 0 1]).roots.length
        + (buildPages [exPage "x" 0 0, exPage "x" 0 1]).orphans.length
        + ((buildPages [exPage "x" 0 0, exPage "x" 0 1]).roots.flatMap strictDescIds
            ++ (buildPages [exPage "x" 0 0, exPage "x" 0 1]).orphans.flatMap
              strictDescIds).length
      = [exPage "x" 0 0, exPage "x" 0 1].length) := by
  decide

theorem claim1_witness :
    (([exPage "a" 0 0, exPage "b" 1 1].map RawPage.id).Nodup
        ∧ (∀ p ∈ [exPage "a" 0 0, exPage "b" 1 1], 0 ≤ p.level)
        ∧ (∀ p ∈ [exPage "a" 0 0, exPage "b" 1 1], p.id ≠ ""))
      ∧ ((buildPages [exPage "a" 0 0, exPage "b" 1 1]).roots.length
            + (buildPages [exPage "a" 0 0, exPage "b" 1 1]).orphans.length
            + ((buildPages [exPage "a" 0 0, exPage "b" 1 1]).roots.flatMap
                strictDescIds
              ++ (buildPages [exPage "a" 0 0, exPage "b" 1 1]).orphans.flatMap
                strictDescIds).length
          = [exPage "a" 0 0, exPage "b" 1 1].length
        ∧ ∀ x, ((buildPages [exPage "a" 0 0, exPage "b" 1 1]).roots.map
              (fun t => t.data.id)
            ++ (((buildPages [exPage "a" 0 0, exPage "b" 1 1]).orphans.map
                (fun t => t.data.id))
              ++ ((buildPages [exPage "a" 0 0, exPage "b" 1 1]).roots.flatMap
                  strictDescIds
                ++ (buildPages [exPage "a" 0 0, exPage "b" 1 1]).orphans.flatMap
                  strictDescIds))).count x
          = if x ∈ [exPage "a" 0 0, exPage "b" 1 1].map RawPage.id
            then 1 else 0) :=
  ⟨⟨by decide, by decide, by decide⟩,
    claim1_tree_completeness [exPage "a" 0 0, exPage "b" 1 1]
      (by decide) (by decide) (by decide)⟩

theorem tbStep_orphan_mono (st : TBState) (n : RawPage) (c : String)
    (h1 : st.orphanFlag c = true) (h2 : st.reasonOf c = some noParentReason) :
    (tbStep st n).orphanFlag c = true
      ∧ (tbStep st n).reasonOf c = some noParentReason := by
  rw [tbStep]
  cases hpop : popStack st.stack n.level with
  | nil =>
    dsimp only
    by_cases hl : 0 < n.level
    · rw [if_pos hl]
      constructor
      · show (if c == n.id then true else st.orphanFlag c) = true
        by_cases hc : (c == n.id) = true <;> simp [hc, h1]
      · show (if c == n.id then some noParentReason else st.reasonOf c)
          = some noParentReason
        by_cases hc : (c == n.id) = true <;> simp [hc, h2]
    · rw [if_neg hl]
      exact ⟨h1, h2⟩
  | cons top rest =>
    obtain ⟨pid, plv⟩ := top
    dsimp only
    by_cases hl : 0 < n.level
    · rw [if_pos hl]
      exact ⟨h1, h2⟩
    · rw [if_neg hl]
      exact ⟨h1, h2⟩

theorem tbFold_orphan_mono (c : String) :
    ∀ (rest : List RawPage) (st : TBState),
      st.orphanFlag c = true → st.reasonOf c = some noParentReason →
      (rest.foldl tbStep st).orphanFlag c = true
        ∧ (rest.foldl tbStep st).reasonOf c = some noParentReason := by
  intro rest
  induction rest with
  | nil =>
    intro st h1 h2
    exact ⟨h1, h2⟩
  | cons n rest ih =>
    intro st h1 h2
    have hstep := tbStep_orphan_mono st n c h1 h2
    exact ih (tbStep st n) hstep.1 hstep.2

theorem tbStep_marks_orphan (st : TBState) (n : RawPage)
    (hl : 0 < n.level) (hpop : popStack st.stack n.level = []) :
    (tbStep st n).orphanFlag n.id = true
      ∧ (tbStep st n).reasonOf n.id = some noParentReason := by
  rw [tbStep, hpop]
  dsimp only
  rw [if_pos hl]
  constructor
  · show (if n.id == n.id then true else st.orphanFlag n.id) = true
    simp
  · show (if n.id == n.id then some noParentReason else st.reasonOf n.id)
      = some noParentReason
    simp

theorem relSt_marks_orphan (pages : List RawPage) (k : Nat)
    (hk : k < (sortByOrder (createNodes pages)).length)
    (hl : 0 < ((sortByOrder (createNodes pages)).get ⟨k, hk⟩).level)
    (hpop : popStack (relStateAfter (createNodes pages) k).stack
        ((sortByOrder (createNodes pages)).get ⟨k, hk⟩).level = []) :
    (treeOut pages).relSt.orphanFlag
        ((sortByOrder (createNodes pages)).get ⟨k, hk⟩).id = true
      ∧ (treeOut pages).relSt.reasonOf
          ((sortByOrder (createNodes pages)).get ⟨k, hk⟩).id
        = some noParentReason := by
  have hs : sortByOrder (createNodes pages)
      = (sortByOrder (createNodes pages)).take k
        ++ ((sortByOrder (createNodes pages)).get ⟨k, hk⟩
          :: (sortByOrder (createNodes pages)).drop (k + 1)) := by
    conv_lhs => rw [← List.take_append_drop k (sortByOrder (createNodes pages))]
    rw [List.drop_eq_getElem_cons hk]
    rfl
  have hfold : buildRelationships (createNodes pages)
      = ((sortByOrder (createNodes pages)).drop (k + 1)).foldl tbStep
        (tbStep (relStateAfter (createNodes pages) k)
          ((sortByOrder (createNodes pages)).get ⟨k, hk⟩)) := by
    rw [buildRelationships]
    conv_lhs => rw [hs]
    rw [List.foldl_append]
    rfl
  show (buildRelationships (createNodes pages)).orphanFlag _ = true
    ∧ (buildRelationships (createNodes pages)).reasonOf _ = some noParentReason
  rw [hfold]
  have hmark := tbStep_marks_orphan (relStateAfter (createNodes pages) k)
    ((sortByOrder (createNodes pages)).get ⟨k, hk⟩) hl hpop
  exact tbFold_orphan_mono _ _ _ hmark.1 hmark.2

/-- C9: whenever `_build_relationships_from_levels` processes a record of
positive level while the popped parent stack is empty, that record is
flagged orphan with reason exactly "No parent found at expected level" and
its id ends up in the orphan bucket; on the concrete input
`[{id:"orphan",level:1,order:0},{id:"p1",level:0,order:1}]` the built
orphan list has length 1 carrying that reason and the root list has
length 1. -/
theorem claim9_empty_stack_orphan :
    (∀ (pages : List RawPage) (k : Nat)
      (hk : k < (sortByOrder (createNodes pages)).length),
      0 < ((sortByOrder (createNodes pages)).get ⟨k, hk⟩).level →
      popStack (relStateAfter (createNodes pages) k).stack
          ((sortByOrder (createNodes pages)).get ⟨k, hk⟩).level = [] →
      (treeOut pages).orphanFlag
          ((sortByOrder (createNodes pages)).get ⟨k, hk⟩).id = true
        ∧ (treeOut pages).reasonOf
            ((sortByOrder (createNodes pages)).get ⟨k, hk⟩).id
          = some noParentReason
        ∧ ((sortByOrder (createNodes pages)).get ⟨k, hk⟩).id
            ∈ (treeOut pages).orphanNodes.map RawPage.id)
    ∧ (buildPages [exPage "orphan" 1 0, exPage "p1" 0 1]).orphans.length = 1
    ∧ (buildPages [exPage "orphan" 1 0, exPage "p1" 0 1]).orphans.map
        (fun t => t.data.orphanReason) = [some noParentReason]
    ∧ (buildPages [exPage "orphan" 1 0, exPage "p1" 0 1]).roots.length = 1 := by
  refine ⟨?_, by decide, by decide, by decide⟩
  intro pages k hk hl hpop
  have hmark := relSt_marks_orphan pages k hk hl hpop
  have hflag : (treeOut pages).orphanFlag
      ((sortByOrder (createNodes pages)).get ⟨k, hk⟩).id = true := by
    rw [treeOut_orphanFlag_eq]
    exact hmark.1
  refine ⟨hflag, ?_, ?_⟩
  · rw [treeOut_reason_eq]
    exact hmark.2
  · apply (mem_orphanIds_iff pages _).mpr
    refine ⟨(sortByOrder (createNodes pages)).get ⟨k, hk⟩, ?_, rfl, hflag⟩
    exact (sortByOrder_perm _).mem_iff.mp (List.get_mem _ _ hk)

/-- C2: the resolved forest is acyclic — the child relation admits no
cycle through any id (so no node is its own descendant), and an ancestor
walk (the assigned-parent chain) from any id never returns to it; in the
trees actually returned by `PageTreeBuilder.build`, roots and orphans
alike, no node's id recurs among its strict descendants. -/
theorem claim2_no_cycles (pages : List RawPage) :
    (∀ x, ¬ Relation.TransGen (childEdge pages) x x)
      ∧ (∀ x, x ∉ ancChain (asgOf pages) (sortedIds pages).length x)
      ∧ noSelfDescList (buildPages pages).roots = true
      ∧ noSelfDescList (buildPages pages).orphans = true := by
  have hedge : ∀ a b, childEdge pages a b →
      (sortedIds pages).indexOf a < (sortedIds pages).indexOf b := by
    intro a b h
    exact (relSt_hedge pages a b h).2
  have htg : ∀ a b, Relation.TransGen (childEdge pages) a b →
      (sortedIds pages).indexOf a < (sortedIds pages).indexOf b := by
    intro a b h
    induction h with
    | single h => exact hedge _ _ h
    | tail _ h ih => exact lt_trans ih (hedge _ _ h)
  have hfuel : ∀ n, n ∈ createNodes pages →
      (sortedIds pages).length - (sortedIds pages).indexOf n.id
        ≤ (createNodes pages).length + 1 := by
    intro n _
    have := sortedIds_length pages
    omega
  refine ⟨fun x hx => absurd (htg x x hx) (lt_irrefl _),
    fun x => ancChain_not_self (asgOf_wf pages) _ x, ?_, ?_⟩
  · by_cases hemp : pages.isEmpty
    · have hb : buildPages pages = ⟨[], [], []⟩ := by
        rw [buildPages, if_pos hemp]
      rw [hb]
      rfl
    · rw [buildPages, if_neg hemp]
      show noSelfDescList ((treeOut pages).rootNodes.map
        (fun n => toTree (treeOut pages) ((createNodes pages).length + 1) n.id)) = true
      apply noSelfDescList_map_all
      intro n hn
      have hmem := treeOut_roots_sub pages n hn
      exact noSelfDesc_toTree pages _ n.id (mem_sortedIds_of_node pages hmem)
        (hfuel n hmem)
  · by_cases hemp : pages.isEmpty
    · have hb : buildPages pages = ⟨[], [], []⟩ := by
        rw [buildPages, if_pos hemp]
      rw [hb]
      rfl
    · rw [buildPages, if_neg hemp]
      show noSelfDescList ((treeOut pages).orphanNodes.map
        (fun n => toTree (treeOut pages) ((createNodes pages).length + 1) n.id)) = true
      apply noSelfDescList_map_all
      intro n hn
      have hmem := treeOut_orphans_sub pages n hn
      exact noSelfDesc_toTree pages _ n.id (mem_sortedIds_of_node pages hmem)
        (hfuel n hmem)

end OneNote
